import Mathlib

/-!
# Policy report merge engine (`pkg/policyreport/policyreport.go`)

A shallow embedding of the merge algorithm of the policy report generator and
the proofs of its specification claims.

Conventions of the embedding

* A Go `interface{}` holding decoded JSON is a `Value`; a
  `map[string]interface{}` is an `Object`, an association list read by its first
  binding of a key.
* A Go function that can stop with a runtime panic (a failed single-value type
  assertion) returns an `Option`; `none` is the panic.
* `hashmap.HashMap` (github.com/cornelk/hashmap) is an association list with
  one binding per key.  The library iterates in the order of the key hashes; the
  embedding iterates in insertion order, and every statement below about the
  extracted list is about membership, counting or pairwise distinctness only.
-/

namespace policyreport

/-! ## Data model -/

/-- A decoded JSON document held in a Go `interface{}`: nil, `bool`, `int64`, `string`,
`[]interface{}` or `map[string]interface{}` (the numbers of the embedding are the
integers). -/
inductive Value where
  | null : Value
  | bool (b : Bool) : Value
  | int (i : Int) : Value
  | str (s : String) : Value
  | list (xs : List Value) : Value
  | map (kvs : List (String × Value)) : Value

/-- Go `map[string]interface{}`. -/
abbrev Object := List (String × Value)

/-- Two-value map read `v, ok := m[k]`. -/
def Object.get? : Object → String → Option Value
  | [], _ => none
  | (k, v) :: t, key => if k = key then some v else Object.get? t key

/-- Single-value map read `m[k]`: the nil interface when the key is absent. -/
def Object.index (m : Object) (key : String) : Value :=
  match m.get? key with
  | some v => v
  | none => Value.null

/-- Map write `m[k] = v`. -/
def Object.set : Object → String → Value → Object
  | [], key, v => [(key, v)]
  | (k, w) :: t, key, v => if k = key then (key, v) :: t else (k, w) :: Object.set t key v

/-- Go `map[string]string` read with two values. -/
def lookupString? : List (String × String) → String → Option String
  | [], _ => none
  | (k, v) :: t, key => if k = key then some v else lookupString? t key

/-- Go `map[string]string` read with one value: the empty string when absent. -/
def lookupString (m : List (String × String)) (key : String) : String :=
  match lookupString? m key with
  | some v => v
  | none => ""

/-- Go comparison `x == s` of an `interface{}` with a `string`: true exactly when the
dynamic type is `string` and the contents agree. -/
def Value.eqString : Value → String → Bool
  | Value.str s, t => decide (s = t)
  | _, _ => false

/-- Lexicographic order of two character lists by code point. -/
def charsLt : List Char → List Char → Bool
  | _, [] => false
  | [], _ :: _ => true
  | a :: as, b :: bs =>
    if a.toNat < b.toNat then true
    else if a.toNat = b.toNat then charsLt as bs
    else false

/-- Go `a < b` on strings: the order of the bytes, which for UTF-8 is the order of the
code points. -/
def keyLt (a b : String) : Bool := charsLt a.data b.data

/-- Insertion of a rendered binding into a list of bindings ordered by key. -/
def insertBinding (kv : String × String) : List (String × String) → List (String × String)
  | [] => [kv]
  | x :: xs => if keyLt kv.1 x.1 then kv :: x :: xs else x :: insertBinding kv xs

/-- The bindings a Go map holds: the first binding of every key of the association list. -/
def firstBindings : List (String × String) → List (String × String)
  | [] => []
  | (k, v) :: t => (k, v) :: (firstBindings t).filter (fun kv => decide (kv.1 ≠ k))

/-- The rendered bindings of a map in the order of their keys, as `fmt` prints a map. -/
def sortBindings (l : List (String × String)) : List String :=
  ((firstBindings l).foldr insertBinding []).map (fun kv => kv.1 ++ ":" ++ kv.2)

mutual
/-- The verb `%s` of `fmt.Sprintf` applied to an `interface{}` argument: a string is
printed as it is, a nil argument and a value of another basic type as a bad-verb note,
a slice and a map element by element. -/
def sprintS : Value → String
  | Value.null => "%!s(<nil>)"
  | Value.bool b => "%!s(bool=" ++ toString b ++ ")"
  | Value.int i => "%!s(int64=" ++ toString i ++ ")"
  | Value.str s => s
  | Value.list xs => "[" ++ " ".intercalate (sprintSList xs) ++ "]"
  | Value.map kvs => "map[" ++ " ".intercalate (sortBindings (sprintSMap kvs)) ++ "]"
/-- Elements of a slice under `%s`; a nil element, an interface without value inside the
slice, is printed `<nil>`. -/
def sprintSList : List Value → List String
  | [] => []
  | Value.null :: xs => "<nil>" :: sprintSList xs
  | Value.bool b :: xs => sprintS (Value.bool b) :: sprintSList xs
  | Value.int i :: xs => sprintS (Value.int i) :: sprintSList xs
  | Value.str s :: xs => sprintS (Value.str s) :: sprintSList xs
  | Value.list ys :: xs => sprintS (Value.list ys) :: sprintSList xs
  | Value.map kvs :: xs => sprintS (Value.map kvs) :: sprintSList xs
/-- Bindings of a map under `%s`; a nil value inside the map is printed `<nil>`. -/
def sprintSMap : List (String × Value) → List (String × String)
  | [] => []
  | (k, Value.null) :: t => (k, "<nil>") :: sprintSMap t
  | (k, Value.bool b) :: t => (k, sprintS (Value.bool b)) :: sprintSMap t
  | (k, Value.int i) :: t => (k, sprintS (Value.int i)) :: sprintSMap t
  | (k, Value.str s) :: t => (k, sprintS (Value.str s)) :: sprintSMap t
  | (k, Value.list ys) :: t => (k, sprintS (Value.list ys)) :: sprintSMap t
  | (k, Value.map kvs) :: t => (k, sprintS (Value.map kvs)) :: sprintSMap t
end

/-- Source: `type deletedResource struct { kind, ns, name string }`. -/
structure deletedResource where
  kind : String
  ns : String
  name : String
  deriving DecidableEq, Repr

/-- The zero value `deletedResource{}`. -/
def deletedResource.zero : deletedResource := { kind := "", ns := "", name := "" }

/-- A report change request as far as this file reads it: `GetLabels()` and
`GetAnnotations()`. -/
structure ChangeRequest where
  labels : List (String × String)
  annotations : List (String × String)

/-- The `aggregatedRequests interface{}` argument: a slice of cluster change requests, a
slice of namespaced change requests, or any other value. -/
inductive AggregatedRequests where
  | cluster (requests : List ChangeRequest) : AggregatedRequests
  | namespaced (requests : List ChangeRequest) : AggregatedRequests
  | other : AggregatedRequests

/-- Modelled from the spec: the typed Result Entry `report.PolicyReportResult`, declared
outside this source file; `updateSummary` reads its status only. -/
structure PolicyReportResult where
  Result : String

/-- Modelled from the spec: the Summary `report.PolicyReportSummary`, declared outside
this source file, `{pass, fail, warn, error, skip: integer counts}`. -/
structure PolicyReportSummary where
  Pass : Nat
  Fail : Nat
  Warn : Nat
  Error : Nat
  Skip : Nat
  deriving DecidableEq, Repr

/-- Modelled from the spec: status `Pass` of the StatusEnum (`report.StatusPass`). -/
def StatusPass : String := "pass"
/-- Modelled from the spec: status `Fail` of the StatusEnum (`report.StatusFail`). -/
def StatusFail : String := "fail"
/-- Modelled from the spec: status `Warn` of the StatusEnum (`report.StatusWarn`). -/
def StatusWarn : String := "warn"
/-- Modelled from the spec: status `Error` of the StatusEnum (`report.StatusError`). -/
def StatusError : String := "error"
/-- Modelled from the spec: status `Skip` of the StatusEnum (`report.StatusSkip`). -/
def StatusSkip : String := "skip"

/-- Declarations of the package that this source file uses and does not contain: the
annotation and label keys of a deletion marker, the reserved prefix of a deleted-policy
key, and whether the fields of a result entry other than `result` decode into
`report.PolicyReportResult`. -/
structure Package where
  deletedAnnotationResourceKind : String
  deletedAnnotationResourceName : String
  resourceLabelNamespace : String
  deletedPolicyKey : String
  otherFieldsDecode : Object → Bool

/-! ## Identity key and tombstone matcher -/

/-- The `fmt.Sprintf("%s-%s-%s-%s-%s", ...)` of `generateHashKey`. -/
def hashKeyOf (result resource : Object) : String :=
  sprintS (Object.index result "policy") ++ "-" ++ sprintS (Object.index result "rule") ++ "-" ++
    sprintS (Object.index resource "kind") ++ "-" ++
    sprintS (Object.index resource "namespace") ++ "-" ++ sprintS (Object.index resource "name")

/-- Source: `generateHashKey(result, dr)`.  `none` is the panic of a failed type assertion
on `result["resources"]` or on `resources[0]`. -/
def generateHashKey (result : Object) (dr : deletedResource) : Option (String × Bool) :=
  match Object.index result "resources" with
  | Value.list resources =>
    match resources with
    | [] => some ("", false)
    | Value.map resource :: _ =>
      if dr ≠ deletedResource.zero then
        if (Object.index resource "kind").eqString dr.kind then
          if (Object.index resource "name").eqString dr.name &&
              (Object.index resource "namespace").eqString dr.ns then
            some ("", false)
          else if decide (dr.kind = "Namespace") &&
              (Object.index resource "name").eqString dr.name then
            some ("", false)
          else some (hashKeyOf result resource, true)
        else some (hashKeyOf result resource, true)
      else some (hashKeyOf result resource, true)
    | _ :: _ => none
  | _ => none

/-! ## Deletion markers -/

/-- Source: `buildLabelForDeletedResource(labels, annotations)`; `none` is the nil
pointer returned when either annotation is missing. -/
def buildLabelForDeletedResource (p : Package) (labels annotations : List (String × String)) :
    Option deletedResource :=
  let kindOk := (lookupString? annotations p.deletedAnnotationResourceKind).isSome
  let nameOk := (lookupString? annotations p.deletedAnnotationResourceName).isSome
  let ok := (true && kindOk) && nameOk
  if !ok then none
  else some
    { kind := lookupString annotations p.deletedAnnotationResourceKind
      name := lookupString annotations p.deletedAnnotationResourceName
      ns := lookupString labels p.resourceLabelNamespace }

/-- The `for _, request := range requests` loop of `getDeletedResources`, appending to
`resources`. -/
def getDeletedResourcesLoop (p : Package) (requests : List ChangeRequest)
    (resources : List deletedResource) : List deletedResource :=
  requests.foldl (fun acc request =>
    match buildLabelForDeletedResource p request.labels request.annotations with
    | some dr => acc ++ [dr]
    | none => acc) resources

/-- Source: `getDeletedResources(aggregatedRequests)`. -/
def getDeletedResources (p : Package) : AggregatedRequests → List deletedResource
  | AggregatedRequests.cluster requests => getDeletedResourcesLoop p requests []
  | AggregatedRequests.namespaced requests => getDeletedResourcesLoop p requests []
  | AggregatedRequests.other => []

/-! ## Result hash table -/

/-- The table `*hashmap.HashMap` from identity key to result entry. -/
abbrev HashMap := List (String × Value)

/-- The method `Get` of the table: the value and whether the key is present. -/
abbrev HashMap.Get (m : HashMap) (key : String) : Option Value := Object.get? m key

/-- The method `Set` of the table: insert, or overwrite the binding of the key. -/
abbrev HashMap.Set (m : HashMap) (key : String) (value : Value) : HashMap :=
  Object.set m key value

/-- The inner loop `for _, dr := range deleteResources` of `hashResults` for one
`result`; `none` is a panic of `result.(map[string]interface{})` or of
`generateHashKey`. -/
def hashResultsMarkers (result : Value) : List deletedResource → HashMap → Option HashMap
  | [], resultsHash => some resultsHash
  | dr :: rest, resultsHash =>
    match result with
    | Value.map m =>
      match generateHashKey m dr with
      | some (key, true) => hashResultsMarkers result rest (resultsHash.Set key result)
      | some (_, false) => hashResultsMarkers result rest resultsHash
      | none => none
    | _ => none

/-- The outer loop `for _, result := range results` of `hashResults`. -/
def hashResultsLoop (deleteResources : List deletedResource) :
    List Value → HashMap → Option HashMap
  | [], resultsHash => some resultsHash
  | result :: rest, resultsHash =>
    if deleteResources.length ≠ 0 then
      match hashResultsMarkers result deleteResources resultsHash with
      | some resultsHash1 => hashResultsLoop deleteResources rest resultsHash1
      | none => none
    else
      match result with
      | Value.map m =>
        match generateHashKey m deletedResource.zero with
        | some (key, true) => hashResultsLoop deleteResources rest (resultsHash.Set key result)
        | some (_, false) => hashResultsLoop deleteResources rest resultsHash
        | none => none
      | _ => none

/-- Source: `hashResults(policyReport, deleteResources)`; `none` is a panic (the
`results` field is present and not a slice, an entry is not a map, or
`generateHashKey` panics). -/
def hashResults (policyReport : Object) (deleteResources : List deletedResource) :
    Option HashMap :=
  match policyReport.get? "results" with
  | none => some []
  | some (Value.list results) => hashResultsLoop deleteResources results []
  | some _ => none

/-- Source: `getResultsFromHash(resHash)`.  The keys of the table are strings, so no
iterated pair equals the sentinel `hashmap.KeyValue{}` (nil key, nil value) and none
is filtered; `none` is the panic of `result.Value.(map[string]interface{})`. -/
def getResultsFromHash : HashMap → Option (List Value)
  | [] => some []
  | (_, Value.map m) :: rest =>
    match getResultsFromHash rest with
    | some results => some (Value.map m :: results)
    | none => none
  | (_, _) :: _ => none

/-! ## Summary -/

/-- Source: `updateSummary(results)`. -/
def updateSummary (results : List PolicyReportResult) : PolicyReportSummary :=
  results.foldl (fun summary result =>
    if result.Result = StatusPass then { summary with Pass := summary.Pass + 1 }
    else if result.Result = StatusFail then { summary with Fail := summary.Fail + 1 }
    else if result.Result = StatusWarn then { summary with Warn := summary.Warn + 1 }
    else if result.Result = StatusError then { summary with Error := summary.Error + 1 }
    else if result.Result = StatusSkip then { summary with Skip := summary.Skip + 1 }
    else summary)
    { Pass := 0, Fail := 0, Warn := 0, Error := 0, Skip := 0 }

/-- Modelled from the spec: `PolicyReportSummary.ToMap()`, declared outside this source
file; the five counts, as numbers, under the keys of the Summary. -/
def PolicyReportSummary.ToMap (s : PolicyReportSummary) : Object :=
  [("pass", Value.int s.Pass), ("fail", Value.int s.Fail), ("warn", Value.int s.Warn),
   ("error", Value.int s.Error), ("skip", Value.int s.Skip)]

/-- The error of a structural conversion that cannot be done. -/
inductive Error where
  | unmarshalType : Error
  deriving DecidableEq, Repr

/-- The key of a JSON object is read into the field `result` of
`report.PolicyReportResult`: `encoding/json` takes the key that is the field name, or
that equals it under Unicode simple case folding; for the letters of `result` the
fold adds the capital letters and, for `s`, the long s (U+017F). -/
def isResultKey (key : String) : Bool :=
  match key.data with
  | [r, e, s, u, l, t] =>
    (decide (r = 'r') || decide (r = 'R')) && (decide (e = 'e') || decide (e = 'E')) &&
      (decide (s = 's') || decide (s = 'S') || decide (s = 'ſ')) &&
      (decide (u = 'u') || decide (u = 'U')) && (decide (l = 'l') || decide (l = 'L')) &&
      (decide (t = 't') || decide (t = 'T'))
  | _ => false

/-- The keys of a map in the order in which `json.Marshal` writes its bindings: every key
once, in increasing order. -/
def marshalKeys (m : Object) : List String :=
  List.insertionSort (fun a b : String => keyLt a b = true) (m.map Prod.fst).dedup

/-- The status that `json.Unmarshal` leaves in the field `Result` after the bindings of the
keys `keys` of the object `m`, read in this order, from the value `status` before them:
a string under a key of the field replaces the status, a null leaves it, a value of
another shape is a conversion error. -/
def decodeStatus (m : Object) : List String → String → Except Error String
  | [], status => Except.ok status
  | key :: rest, status =>
    if isResultKey key then
      match Object.index m key with
      | Value.null => decodeStatus m rest status
      | Value.str s => decodeStatus m rest s
      | _ => Except.error Error.unmarshalType
    else decodeStatus m rest status

/-- Modelled from the spec: the structural reinterpretation of one extracted entry as a
typed Result Entry (the JSON round trip into `report.PolicyReportResult`, a type declared
outside this source file).  The status is read from the bindings of the entry in the
order of `json.Marshal`, under every key that `encoding/json` takes for the field
`result`, starting from the empty string; a status of another shape, or another field
that does not decode, is a conversion error. -/
def decodeResult (p : Package) : Value → Except Error PolicyReportResult
  | Value.map m =>
    if p.otherFieldsDecode m then
      match decodeStatus m (marshalKeys m) "" with
      | Except.ok s => Except.ok { Result := s }
      | Except.error e => Except.error e
    else Except.error Error.unmarshalType
  | Value.null => Except.ok { Result := "" }
  | _ => Except.error Error.unmarshalType

/-- Source: `mapToStruct(in, out)` at its one call site, `in` the extracted result list and
`out` a `*[]report.PolicyReportResult`: every element is decoded, and the call fails
when some element does not decode. -/
def mapToStruct (p : Package) : List Value → Except Error (List PolicyReportResult)
  | [] => Except.ok []
  | v :: rest =>
    match decodeResult p v, mapToStruct p rest with
    | Except.ok r, Except.ok rs => Except.ok (r :: rs)
    | Except.error e, _ => Except.error e
    | Except.ok _, Except.error e => Except.error e

/-! ## Report updater -/

/-- The loop `for _, res := range newresults` of `updateResults`, on the table and the
flag `hasDuplicate`; `none` is a panic of `generateHashKey`. -/
def updateResultsLoop : List Value → HashMap → Bool → Option (HashMap × Bool)
  | [], oldResults, hasDuplicate => some (oldResults, hasDuplicate)
  | res :: rest, oldResults, hasDuplicate =>
    match res with
    | Value.map resMap =>
      match generateHashKey resMap deletedResource.zero with
      | some (key, true) =>
        match oldResults.Get key with
        | some _ => updateResultsLoop rest (oldResults.Set key res) true
        | none => updateResultsLoop rest (oldResults.Set key res) hasDuplicate
      | some (_, false) => updateResultsLoop rest oldResults hasDuplicate
      | none => none
    | _ => updateResultsLoop rest oldResults hasDuplicate

/-- The table and the flag after the first half of `updateResults`: seeding from the old
report and folding in the new entries. -/
def mergedTable (p : Package) (oldReport newReport : Object)
    (aggregatedRequests : AggregatedRequests) : Option (HashMap × Bool) :=
  match hashResults oldReport (getDeletedResources p aggregatedRequests) with
  | none => none
  | some oldResults =>
    match newReport.get? "results" with
    | some (Value.list newresults) => updateResultsLoop newresults oldResults false
    | _ => some (oldResults, false)

/-- Source: `updateResults(oldReport, newReport, aggregatedRequests)`.  The outer `none` is
a panic; otherwise the three results of the Go function: the report (nil with an
error), the flag `hasDuplicate`, and the error.  `unstructured.SetNestedSlice` and
`unstructured.SetNestedMap` with a single field name write that key of the (non-nil)
map and return no error. -/
def updateResults (p : Package) (oldReport newReport : Object)
    (aggregatedRequests : AggregatedRequests) : Option (Option Object × Bool × Option Error) :=
  match mergedTable p oldReport newReport aggregatedRequests with
  | none => none
  | some (oldResults, hasDuplicate) =>
    match getResultsFromHash oldResults with
    | none => none
    | some results =>
      let newReport1 := Object.set newReport "results" (Value.list results)
      match mapToStruct p results with
      | Except.error err => some (none, hasDuplicate, some err)
      | Except.ok summaryResults =>
        let summary := updateSummary summaryResults
        some (some (Object.set newReport1 "summary" (Value.map summary.ToMap)), hasDuplicate, none)

/-! ## Tombstone-key parser -/

/-- Pieces of a character list between the occurrences of `sep`. -/
def splitChars (sep : Char) : List Char → List (List Char)
  | [] => [[]]
  | c :: cs =>
    if c = sep then [] :: splitChars sep cs
    else
      match splitChars sep cs with
      | [] => [[c]]
      | piece :: pieces => (c :: piece) :: pieces

/-- Go `strings.Split(s, sep)` for a separator of one character: the substrings between
the separators, in order; a string without separator is the only piece. -/
def stringsSplit (s : String) (sep : Char) : List String :=
  (splitChars sep s.data).map String.mk

/-- Source: `isDeletedPolicyKey(key)`, with the results `policyName`, `ruleName`,
`isDelete`; `none` is the panic of an index out of range. -/
def isDeletedPolicyKey (p : Package) (key : String) : Option (String × String × Bool) :=
  let policy := stringsSplit key '/'
  match policy.get? 0 with
  | none => none
  | some policy0 =>
    if policy0 = p.deletedPolicyKey then
      if policy.length = 3 then
        match policy.get? 1, policy.get? 2 with
        | some policy1, some policy2 => some (policy1, policy2, true)
        | _, _ => none
      else if policy.length = 2 then
        match policy.get? 1 with
        | some policy1 => some (policy1, "", true)
        | none => none
      else some ("", "", false)
    else some ("", "", false)

/-! ## Vocabulary of the statements -/

/-- The key under which an entry is filed when it is evaluated against the marker `dr`:
the key of `generateHashKey` when it answers `ok = true`. -/
def keyUnder (dr : deletedResource) : Value → Option String
  | Value.map m =>
    match generateHashKey m dr with
    | some (key, true) => some key
    | _ => none
  | _ => none

/-- The identity key of an entry: its key under the zero-value marker. -/
def identityKey (v : Value) : Option String := keyUnder deletedResource.zero v

/-- The marker `dr` suppresses the entry: `generateHashKey` answers `ok = false` although the
entry has an identity key. -/
def suppressedBy (dr : deletedResource) (v : Value) : Prop :=
  (∃ key, identityKey v = some key) ∧ keyUnder dr v = none

/-- The entries a report delivers: the slice under `results`, nothing when the field is
absent or not a slice. -/
def entriesOf (report : Object) : List Value :=
  match report.get? "results" with
  | some (Value.list xs) => xs
  | _ => []

/-- The last entry of a list that satisfies `q`. -/
def lastMatch (q : Value → Bool) : List Value → Option Value
  | [] => none
  | e :: rest =>
    match lastMatch q rest with
    | some x => some x
    | none => if q e then some e else none

/-- The seeding pass of `hashResults` files the entry `e` under the key `k`: with
markers, some marker evaluation answers the key `k`; without markers, `k` is the identity
key of `e`. -/
def seeds (deleteResources : List deletedResource) (e : Value) (k : String) : Bool :=
  if deleteResources.length ≠ 0 then
    deleteResources.any (fun dr => decide (keyUnder dr e = some k))
  else decide (identityKey e = some k)

/-- The invariant of the result table: one binding per key, and every entry is bound
under its own identity key. -/
def TableInv (h : HashMap) : Prop :=
  (h.map Prod.fst).Nodup ∧ ∀ k v, h.Get k = some v → identityKey v = some k

/-- The status is one of the five recognized values. -/
def recognized (status : String) : Bool :=
  decide (status = StatusPass) || decide (status = StatusFail) ||
    decide (status = StatusWarn) || decide (status = StatusError) ||
    decide (status = StatusSkip)

/-- The entry is a map whose `resources` field is a slice without elements. -/
def emptyResources : Value → Bool
  | Value.map m =>
    match Object.index m "resources" with
    | Value.list [] => true
    | _ => false
  | _ => false

/-- The report without the entries of its `results` slice that have an empty resources
list; a report whose `results` field is absent or not a slice is left as it is. -/
def withoutEmptyResources (report : Object) : Object :=
  match report.get? "results" with
  | some (Value.list xs) =>
    Object.set report "results" (Value.list (xs.filter (fun e => !emptyResources e)))
  | _ => report

/-- The entry survives the seeding pass under the markers: there are no markers, or some
marker does not suppress it. -/
def survives (deleteResources : List deletedResource) (e : Value) : Prop :=
  deleteResources = [] ∨ ∃ dr ∈ deleteResources, ¬ suppressedBy dr e

/-! ## Sample inputs -/

/-- A package whose marker keys are `kind`, `name` and `namespace` and in which every
entry decodes. -/
def samplePackage : Package :=
  { deletedAnnotationResourceKind := "kind"
    deletedAnnotationResourceName := "name"
    resourceLabelNamespace := "namespace"
    deletedPolicyKey := "del"
    otherFieldsDecode := fun _ => true }

/-- A result entry with one resource. -/
def sampleEntry (policy rule kind ns name status : String) : Value :=
  Value.map
    [("policy", Value.str policy), ("rule", Value.str rule), ("result", Value.str status),
     ("resources", Value.list
        [Value.map [("kind", Value.str kind), ("namespace", Value.str ns),
                    ("name", Value.str name)]])]

/-- An old report with results for the pods `x/y` and `x/z`. -/
def sampleOld : Object :=
  [("results", Value.list
      [sampleEntry "p" "r" "Pod" "x" "y" "pass", sampleEntry "p" "r" "Pod" "x" "z" "fail"]),
   ("summary", Value.map [("pass", Value.int 7)])]

/-- A new report with two results for the pod `x/z`, the first under a key of the old
report. -/
def sampleNew : Object :=
  [("results", Value.list
      [sampleEntry "p" "r" "Pod" "x" "z" "pass", sampleEntry "q" "r" "Pod" "x" "z" "skip"])]

/-- One fragment, which signals the deletion of the pod `x/y`. -/
def sampleRequests : AggregatedRequests :=
  AggregatedRequests.namespaced
    [{ labels := [("namespace", "x")], annotations := [("kind", "Pod"), ("name", "y")] }]

/-- The table seeded from `sampleOld` under the marker of `sampleRequests`. -/
def sampleSeed : HashMap := [("p-r-Pod-x-z", sampleEntry "p" "r" "Pod" "x" "z" "fail")]

/-- The merged result list of the sample call. -/
def sampleOut : List Value :=
  [sampleEntry "p" "r" "Pod" "x" "z" "pass", sampleEntry "q" "r" "Pod" "x" "z" "skip"]

/-- The report returned by the sample call. -/
def sampleMerged : Object :=
  [("results", Value.list sampleOut),
   ("summary", Value.map [("pass", Value.int 1), ("fail", Value.int 0), ("warn", Value.int 0),
      ("error", Value.int 0), ("skip", Value.int 1)])]

/-- A new report with the single result `p/r` for the pod `x/z`. -/
def sampleSingle : Object :=
  [("results", Value.list [sampleEntry "p" "r" "Pod" "x" "z" "pass"])]

/-- The report returned when `sampleSingle` is merged, into `sampleOld` or into an empty
report. -/
def sampleSingleMerged : Object :=
  [("results", Value.list [sampleEntry "p" "r" "Pod" "x" "z" "pass"]),
   ("summary", Value.map [("pass", Value.int 1), ("fail", Value.int 0), ("warn", Value.int 0),
      ("error", Value.int 0), ("skip", Value.int 0)])]

/-- A result entry whose resources list is empty. -/
def sampleEmptyEntry (policy rule status : String) : Value :=
  Value.map
    [("policy", Value.str policy), ("rule", Value.str rule), ("result", Value.str status),
     ("resources", Value.list [])]

/-- The old report `sampleOld` with one more entry, whose resources list is empty. -/
def sampleOldEmpty : Object :=
  [("results", Value.list
      [sampleEntry "p" "r" "Pod" "x" "y" "pass", sampleEmptyEntry "p" "r" "fail",
       sampleEntry "p" "r" "Pod" "x" "z" "fail"]),
   ("summary", Value.map [("pass", Value.int 7)])]

/-- The new report `sampleNew` with two more entries, whose resources lists are empty. -/
def sampleNewEmpty : Object :=
  [("results", Value.list
      [sampleEmptyEntry "p" "r" "fail", sampleEntry "p" "r" "Pod" "x" "z" "pass",
       sampleEmptyEntry "p" "r" "fail", sampleEntry "q" "r" "Pod" "x" "z" "skip"])]

/-- A result entry without a `resources` field. -/
def sampleNoResources : Object :=
  [("policy", Value.str "p"), ("rule", Value.str "r"), ("result", Value.str "pass")]

theorem get?_set (m : Object) (k k' : String) (v : Value) :
    Object.get? (Object.set m k v) k' = if k = k' then some v else Object.get? m k' := by
  induction m with
  | nil => simp [Object.set, Object.get?]
  | cons hd tl ih =>
    obtain ⟨a, b⟩ := hd
    by_cases h : a = k
    · subst h
      by_cases h' : a = k' <;> simp [Object.set, Object.get?, h']
    · by_cases h' : a = k'
      · subst h'
        simp [Object.set, Object.get?, h, Ne.symm h]
      · simp [Object.set, Object.get?, h, h', ih]

theorem index_set (m : Object) (k k' : String) (v : Value) :
    Object.index (Object.set m k v) k' = if k = k' then v else Object.index m k' := by
  unfold Object.index
  rw [get?_set]
  by_cases h : k = k' <;> simp [h]

theorem mem_of_get? {m : Object} {k : String} {v : Value} (h : Object.get? m k = some v) :
    (k, v) ∈ m := by
  induction m with
  | nil => simp [Object.get?] at h
  | cons hd tl ih =>
    obtain ⟨a, b⟩ := hd
    by_cases hk : a = k
    · subst hk
      simp [Object.get?] at h
      simp [h]
    · simp [Object.get?, hk] at h
      exact List.mem_cons_of_mem _ (ih h)

theorem get?_eq_none {m : Object} {k : String} :
    Object.get? m k = none ↔ k ∉ m.map Prod.fst := by
  induction m with
  | nil => simp [Object.get?]
  | cons hd tl ih =>
    obtain ⟨a, b⟩ := hd
    by_cases hk : a = k
    · subst hk
      simp [Object.get?]
    · simp [Object.get?, hk, ih, Ne.symm hk]

theorem get?_of_mem {m : Object} (hn : (m.map Prod.fst).Nodup) {k : String} {v : Value}
    (h : (k, v) ∈ m) : Object.get? m k = some v := by
  induction m with
  | nil => simp at h
  | cons hd tl ih =>
    obtain ⟨a, b⟩ := hd
    simp only [List.map_cons, List.nodup_cons] at hn
    rcases List.mem_cons.1 h with heq | hmem
    · injection heq with h1 h2
      subst h1 h2
      simp [Object.get?]
    · have hne : a ≠ k := by
        intro hak
        subst hak
        exact hn.1 (List.mem_map_of_mem Prod.fst hmem)
      simp [Object.get?, hne, ih hn.2 hmem]

theorem keys_set (m : Object) (k k' : String) (v : Value) :
    k' ∈ (Object.set m k v).map Prod.fst ↔ k' = k ∨ k' ∈ m.map Prod.fst := by
  have h1 := @get?_eq_none (Object.set m k v) k'
  have h2 := @get?_eq_none m k'
  rw [get?_set] at h1
  by_cases h : k = k'
  · subst h
    simp at h1
    simp [h1]
  · simp only [h, if_false] at h1
    have h3 : k' ≠ k := Ne.symm h
    constructor
    · intro hm
      right
      by_contra hc
      exact (h1.1 (h2.2 hc)) hm
    · rintro (hm | hm)
      · exact absurd hm h3
      · by_contra hc
        exact (h2.1 (h1.2 hc)) hm

theorem nodup_set {m : Object} (hn : (m.map Prod.fst).Nodup) (k : String) (v : Value) :
    ((Object.set m k v).map Prod.fst).Nodup := by
  induction m with
  | nil => simp [Object.set]
  | cons hd tl ih =>
    obtain ⟨a, b⟩ := hd
    simp only [List.map_cons, List.nodup_cons] at hn
    by_cases hk : a = k
    · subst hk
      simp [Object.set, hn.1, hn.2]
    · simp only [Object.set, hk, if_false, List.map_cons, List.nodup_cons]
      refine ⟨?_, ih hn.2⟩
      intro hmem
      rcases (keys_set tl k a v).1 hmem with h | h
      · exact hk h
      · exact hn.1 h

/-! ## Identity key -/

theorem eqString_iff (v : Value) (s : String) : v.eqString s = true ↔ v = Value.str s := by
  cases v <;> simp [Value.eqString]

/-- C1: with the zero-value marker, an entry whose resources list is non-empty gets
`ok = true` and the key `policy-rule-kind-namespace-name` built from the first resource
only (another entry with the same policy, rule and first resource gets the same key,
whatever its later resources are); an entry whose resources list is empty gets
`("", false)`. -/
theorem generateHashKey_zero_marker (result : Object) :
    (∀ (resource : Object) (rest : List Value),
        Object.index result "resources" = Value.list (Value.map resource :: rest) →
        generateHashKey result deletedResource.zero
            = some (sprintS (Object.index result "policy") ++ "-" ++
                sprintS (Object.index result "rule") ++ "-" ++
                sprintS (Object.index resource "kind") ++ "-" ++
                sprintS (Object.index resource "namespace") ++ "-" ++
                sprintS (Object.index resource "name"), true)
          ∧ (∀ policy rule kind ns name : String,
              Object.index result "policy" = Value.str policy →
              Object.index result "rule" = Value.str rule →
              Object.index resource "kind" = Value.str kind →
              Object.index resource "namespace" = Value.str ns →
              Object.index resource "name" = Value.str name →
              generateHashKey result deletedResource.zero
                = some (policy ++ "-" ++ rule ++ "-" ++ kind ++ "-" ++ ns ++ "-" ++ name, true))
          ∧ (∀ (result1 : Object) (rest1 : List Value),
              Object.index result1 "policy" = Object.index result "policy" →
              Object.index result1 "rule" = Object.index result "rule" →
              Object.index result1 "resources" = Value.list (Value.map resource :: rest1) →
              generateHashKey result1 deletedResource.zero
                = generateHashKey result deletedResource.zero))
    ∧ (Object.index result "resources" = Value.list [] →
        generateHashKey result deletedResource.zero = some ("", false)) := by
  refine ⟨?_, ?_⟩
  · intro resource rest hres
    refine ⟨?_, ?_, ?_⟩
    · simp [generateHashKey, hres, hashKeyOf]
    · intro policy rule kind ns name hp hr hk hn hm
      simp [generateHashKey, hres, hashKeyOf, hp, hr, hk, hn, hm, sprintS]
    · intro result1 rest1 hp hr hres1
      simp [generateHashKey, hres, hres1, hashKeyOf, hp, hr]
  · intro hres
    simp [generateHashKey, hres]

theorem generateHashKey_zero_marker_witness :
    generateHashKey
        [("policy", Value.str "p"), ("rule", Value.str "r"),
         ("resources", Value.list
            [Value.map [("kind", Value.str "Pod"), ("namespace", Value.str "x"),
                        ("name", Value.str "y")],
             Value.map [("kind", Value.str "Pod"), ("namespace", Value.str "x"),
                        ("name", Value.str "z")]])]
        deletedResource.zero
      = some ("p" ++ "-" ++ "r" ++ "-" ++ "Pod" ++ "-" ++ "x" ++ "-" ++ "y", true)
    ∧ generateHashKey [("policy", Value.str "p"), ("resources", Value.list [])]
        deletedResource.zero = some ("", false)
    ∧ generateHashKey
        [("policy", Value.str "p"),
         ("resources", Value.list
            [Value.map [("kind", Value.list [Value.str "a", Value.null]),
                        ("name", Value.str "y")]])]
        deletedResource.zero = some ("p-%!s(<nil>)-[a <nil>]-%!s(<nil>)-y", true) :=
  ⟨((generateHashKey_zero_marker
        [("policy", Value.str "p"), ("rule", Value.str "r"),
         ("resources", Value.list
            [Value.map [("kind", Value.str "Pod"), ("namespace", Value.str "x"),
                        ("name", Value.str "y")],
             Value.map [("kind", Value.str "Pod"), ("namespace", Value.str "x"),
                        ("name", Value.str "z")]])]).1
        [("kind", Value.str "Pod"), ("namespace", Value.str "x"), ("name", Value.str "y")]
        [Value.map [("kind", Value.str "Pod"), ("namespace", Value.str "x"),
                    ("name", Value.str "z")]] rfl).2.1 "p" "r" "Pod" "x" "y" rfl rfl rfl rfl rfl,
   (generateHashKey_zero_marker [("policy", Value.str "p"), ("resources", Value.list [])]).2 rfl,
   ((generateHashKey_zero_marker
        [("policy", Value.str "p"),
         ("resources", Value.list
            [Value.map [("kind", Value.list [Value.str "a", Value.null]),
                        ("name", Value.str "y")]])]).1
        [("kind", Value.list [Value.str "a", Value.null]), ("name", Value.str "y")] [] rfl).1⟩

/-- The answer of `generateHashKey` for an entry with a first resource, by the three
comparisons of the tombstone matcher. -/
theorem generateHashKey_first (result resource : Object) (rest : List Value)
    (m : deletedResource)
    (hres : Object.index result "resources" = Value.list (Value.map resource :: rest)) :
    generateHashKey result m =
      if m ≠ deletedResource.zero ∧ (Object.index resource "kind").eqString m.kind = true ∧
          (((Object.index resource "name").eqString m.name = true ∧
              (Object.index resource "namespace").eqString m.ns = true) ∨
            (m.kind = "Namespace" ∧ (Object.index resource "name").eqString m.name = true))
      then some ("", false) else some (hashKeyOf result resource, true) := by
  simp only [generateHashKey, hres]
  by_cases hm : m = deletedResource.zero
  · simp [hm]
  · cases hk : (Object.index resource "kind").eqString m.kind <;>
      cases hn : (Object.index resource "name").eqString m.name <;>
      cases hs : (Object.index resource "namespace").eqString m.ns <;>
      by_cases hN : m.kind = "Namespace" <;> simp [hm, hN]

/-- C2: for an entry with a first resource and a marker `m`: the zero-value marker never
suppresses; another marker suppresses exactly when the first resource's kind equals
`m.kind` and (its name equals `m.name` and its namespace equals `m.ns`, or `m.kind` is
"Namespace" and its name equals `m.name`); and when the entry is not suppressed the
answer is the one of the zero-value marker, with `ok = true`. -/
theorem generateHashKey_marker (result resource : Object) (rest : List Value)
    (m : deletedResource)
    (hres : Object.index result "resources" = Value.list (Value.map resource :: rest)) :
    (m = deletedResource.zero → ∃ key, generateHashKey result m = some (key, true))
    ∧ (m ≠ deletedResource.zero →
        ((∃ key, generateHashKey result m = some (key, false)) ↔
          (Object.index resource "kind" = Value.str m.kind ∧
            ((Object.index resource "name" = Value.str m.name ∧
                Object.index resource "namespace" = Value.str m.ns) ∨
              (m.kind = "Namespace" ∧ Object.index resource "name" = Value.str m.name)))))
    ∧ ((¬ ∃ key, generateHashKey result m = some (key, false)) →
        generateHashKey result m = generateHashKey result deletedResource.zero
          ∧ ∃ key, generateHashKey result deletedResource.zero = some (key, true)) := by
  have hz : generateHashKey result deletedResource.zero
      = some (hashKeyOf result resource, true) := by
    rw [generateHashKey_first result resource rest _ hres]
    simp
  have hg := generateHashKey_first result resource rest m hres
  simp only [← eqString_iff]
  refine ⟨?_, ?_, ?_⟩
  · intro hm
    subst hm
    exact ⟨_, hz⟩
  · intro hm
    rw [hg]
    constructor
    · rintro ⟨key, hkey⟩
      by_contra hc
      rw [if_neg (fun h => hc h.2)] at hkey
      simp at hkey
    · intro hc
      rw [if_pos ⟨hm, hc⟩]
      exact ⟨_, rfl⟩
  · intro hns
    refine ⟨?_, _, hz⟩
    rw [hz, hg]
    rw [hg] at hns
    split
    · rename_i hc
      rw [if_pos hc] at hns
      exact absurd ⟨_, rfl⟩ hns
    · rfl

theorem generateHashKey_marker_witness :
    (∃ key, generateHashKey
        [("policy", Value.str "p"), ("rule", Value.str "r"),
         ("resources", Value.list
            [Value.map [("kind", Value.str "Pod"), ("namespace", Value.str "x"),
                        ("name", Value.str "y")]])]
        { kind := "Pod", ns := "x", name := "y" } = some (key, false)) ↔
      (Object.index [("kind", Value.str "Pod"), ("namespace", Value.str "x"),
            ("name", Value.str "y")] "kind" = Value.str "Pod" ∧
        ((Object.index [("kind", Value.str "Pod"), ("namespace", Value.str "x"),
              ("name", Value.str "y")] "name" = Value.str "y" ∧
            Object.index [("kind", Value.str "Pod"), ("namespace", Value.str "x"),
              ("name", Value.str "y")] "namespace" = Value.str "x") ∨
          ("Pod" = "Namespace" ∧
            Object.index [("kind", Value.str "Pod"), ("namespace", Value.str "x"),
              ("name", Value.str "y")] "name" = Value.str "y"))) :=
  (generateHashKey_marker
    [("policy", Value.str "p"), ("rule", Value.str "r"),
     ("resources", Value.list
        [Value.map [("kind", Value.str "Pod"), ("namespace", Value.str "x"),
                    ("name", Value.str "y")]])]
    [("kind", Value.str "Pod"), ("namespace", Value.str "x"), ("name", Value.str "y")] []
    { kind := "Pod", ns := "x", name := "y" } rfl).2.1 (by decide)

/-! ## Last match -/

theorem lastMatch_none {q : Value → Bool} {l : List Value} :
    lastMatch q l = none ↔ ∀ x ∈ l, q x = false := by
  induction l with
  | nil => simp [lastMatch]
  | cons e rest ih =>
    simp only [lastMatch, List.mem_cons, forall_eq_or_imp]
    cases hr : lastMatch q rest with
    | some x =>
      simp only [false_iff, reduceCtorEq]
      intro hc
      rw [ih.2 hc.2] at hr
      exact Option.noConfusion hr
    | none =>
      cases hq : q e
      · simpa using ih.1 hr
      · simp

theorem lastMatch_some {q : Value → Bool} {l : List Value} {e : Value} :
    lastMatch q l = some e ↔
      ∃ pre post, l = pre ++ e :: post ∧ q e = true ∧ ∀ x ∈ post, q x = false := by
  induction l with
  | nil => simp [lastMatch]
  | cons a rest ih =>
    simp only [lastMatch]
    cases hr : lastMatch q rest with
    | some x =>
      simp only [Option.some.injEq]
      constructor
      · intro hx
        subst hx
        obtain ⟨pre, post, h1, h2, h3⟩ := ih.1 hr
        exact ⟨a :: pre, post, by simp [h1], h2, h3⟩
      · rintro ⟨pre, post, h1, h2, h3⟩
        cases pre with
        | nil =>
          simp only [List.nil_append, List.cons.injEq] at h1
          have hn : lastMatch q rest = none := lastMatch_none.2 (by rw [h1.2]; exact h3)
          rw [hn] at hr
          exact Option.noConfusion hr
        | cons b pre1 =>
          simp only [List.cons_append, List.cons.injEq] at h1
          have := ih.2 ⟨pre1, post, h1.2, h2, h3⟩
          rw [hr] at this
          exact Option.some.inj this
    | none =>
      have hall := lastMatch_none.1 hr
      constructor
      · intro h
        by_cases hq : q a = true
        · simp only [hq, if_true, Option.some.injEq] at h
          subst h
          exact ⟨[], rest, rfl, hq, hall⟩
        · simp [hq] at h
      · rintro ⟨pre, post, h1, h2, h3⟩
        cases pre with
        | nil =>
          simp only [List.nil_append, List.cons.injEq] at h1
          rw [h1.1, if_pos h2]
        | cons b pre1 =>
          simp only [List.cons_append, List.cons.injEq] at h1
          have := hall e (by rw [h1.2]; simp)
          rw [h2] at this
          exact Bool.noConfusion this

theorem lastMatch_mem {q : Value → Bool} {l : List Value} {e : Value}
    (h : lastMatch q l = some e) : e ∈ l ∧ q e = true := by
  obtain ⟨pre, post, h1, h2, _⟩ := lastMatch_some.1 h
  exact ⟨by rw [h1]; simp, h2⟩

/-! ## Keys of an entry -/

theorem keyUnder_first (m resource : Object) (rest : List Value) (dr : deletedResource)
    (hres : Object.index m "resources" = Value.list (Value.map resource :: rest)) :
    keyUnder dr (Value.map m) = some (hashKeyOf m resource) ∨ keyUnder dr (Value.map m) = none := by
  simp only [keyUnder, generateHashKey_first m resource rest dr hres]
  by_cases hc : dr ≠ deletedResource.zero ∧ (Object.index resource "kind").eqString dr.kind = true ∧
      (((Object.index resource "name").eqString dr.name = true ∧
          (Object.index resource "namespace").eqString dr.ns = true) ∨
        (dr.kind = "Namespace" ∧ (Object.index resource "name").eqString dr.name = true))
  · rw [if_pos hc]
    simp
  · rw [if_neg hc]
    simp

theorem identityKey_first (m resource : Object) (rest : List Value)
    (hres : Object.index m "resources" = Value.list (Value.map resource :: rest)) :
    identityKey (Value.map m) = some (hashKeyOf m resource) := by
  simp [identityKey, keyUnder, generateHashKey_first m resource rest _ hres]

theorem keyUnder_eq_identityKey {dr : deletedResource} {e : Value} {k : String}
    (h : keyUnder dr e = some k) : identityKey e = some k := by
  cases e with
  | map m =>
    cases hres : Object.index m "resources" with
    | list resources =>
      cases resources with
      | nil => simp [keyUnder, generateHashKey, hres] at h
      | cons r0 rest =>
        cases r0 with
        | map resource =>
          rw [identityKey_first m resource rest hres]
          rcases keyUnder_first m resource rest dr hres with h1 | h1
          · rw [← h, h1]
          · rw [h1] at h
            exact Option.noConfusion h
        | _ => simp [keyUnder, generateHashKey, hres] at h
    | _ => simp [keyUnder, generateHashKey, hres] at h
  | _ => simp [keyUnder] at h

theorem identityKey_isMap {e : Value} {k : String} (h : identityKey e = some k) :
    ∃ m, e = Value.map m ∧ generateHashKey m deletedResource.zero = some (k, true) := by
  cases e with
  | map m =>
    refine ⟨m, rfl, ?_⟩
    simp only [identityKey, keyUnder] at h
    split at h
    · rename_i key heq
      simp only [Option.some.injEq] at h
      subst h
      exact heq
    · exact Option.noConfusion h
  | _ => simp [identityKey, keyUnder] at h

/-- An entry with an identity key never makes `generateHashKey` panic, and every marker
either files it under that key or suppresses it. -/
theorem keyUnder_cases {e : Value} {k : String} (h : identityKey e = some k)
    (dr : deletedResource) :
    ∃ m, e = Value.map m ∧
      (generateHashKey m dr = some (k, true) ∨ generateHashKey m dr = some ("", false)) := by
  obtain ⟨m, hm, hg⟩ := identityKey_isMap h
  refine ⟨m, hm, ?_⟩
  cases hres : Object.index m "resources" with
  | list resources =>
    cases resources with
    | nil => simp [generateHashKey, hres] at hg
    | cons r0 rest =>
      cases r0 with
      | map resource =>
        rw [generateHashKey_first m resource rest _ hres] at hg ⊢
        split at hg
        · simp at hg
        · simp only [Option.some.injEq, Prod.mk.injEq, and_true] at hg
          subst hg
          split
          · right; rfl
          · left; rfl
      | _ => simp [generateHashKey, hres] at hg
  | _ => simp [generateHashKey, hres] at hg

theorem seeds_identityKey {D : List deletedResource} {e : Value} {k : String}
    (h : seeds D e k = true) : identityKey e = some k := by
  unfold seeds at h
  split at h
  · rw [List.any_eq_true] at h
    obtain ⟨dr, _, hdr⟩ := h
    exact keyUnder_eq_identityKey (of_decide_eq_true hdr)
  · exact of_decide_eq_true h

/-! ## The seeding pass -/

theorem hashResultsMarkers_spec (e : Value) (D : List deletedResource) :
    ∀ (h h1 : HashMap), hashResultsMarkers e D h = some h1 →
      ((h.map Prod.fst).Nodup → (h1.map Prod.fst).Nodup) ∧
      ∀ k, h1.Get k =
        if D.any (fun dr => decide (keyUnder dr e = some k)) = true then some e else h.Get k := by
  induction D with
  | nil =>
    intro h h1 hrun
    simp only [hashResultsMarkers, Option.some.injEq] at hrun
    subst hrun
    simp
  | cons dr rest ih =>
    intro h h1 hrun
    cases e with
    | map m =>
      simp only [hashResultsMarkers] at hrun
      cases hg : generateHashKey m dr with
      | none => simp [hg] at hrun
      | some kb =>
        obtain ⟨key, b⟩ := kb
        cases b with
        | true =>
          simp only [hg] at hrun
          obtain ⟨hn, hget⟩ := ih _ _ hrun
          have hku : keyUnder dr (Value.map m) = some key := by simp [keyUnder, hg]
          refine ⟨fun hnd => hn (nodup_set hnd _ _), fun k => ?_⟩
          rw [hget k, List.any_cons, hku]
          simp only [HashMap.Get, HashMap.Set, get?_set]
          by_cases hkk : key = k
          · simp [hkk]
          · simp [hkk]
        | false =>
          simp only [hg] at hrun
          obtain ⟨hn, hget⟩ := ih _ _ hrun
          have hku : keyUnder dr (Value.map m) = none := by simp [keyUnder, hg]
          refine ⟨hn, fun k => ?_⟩
          rw [hget k, List.any_cons, hku]
          simp
    | _ => simp [hashResultsMarkers] at hrun

theorem hashResultsMarkers_total {e : Value} {k0 : String} (hk : identityKey e = some k0)
    (D : List deletedResource) : ∀ h : HashMap, ∃ h1, hashResultsMarkers e D h = some h1 := by
  induction D with
  | nil => intro h; exact ⟨h, rfl⟩
  | cons dr rest ih =>
    intro h
    obtain ⟨m, hm, hg⟩ := keyUnder_cases hk dr
    subst hm
    rcases hg with hg | hg
    · simp only [hashResultsMarkers, hg]
      exact ih _
    · simp only [hashResultsMarkers, hg]
      exact ih _

/-- One round of the outer loop of `hashResults`, without markers: the entry is filed
under its identity key, or skipped, or the call panics. -/
theorem hashResultsLoop_nil_step (e : Value) :
    (∃ key, identityKey e = some key ∧ ∀ rest h,
        hashResultsLoop [] (e :: rest) h = hashResultsLoop [] rest (HashMap.Set h key e))
    ∨ (identityKey e = none ∧ ∀ rest h,
        hashResultsLoop [] (e :: rest) h = hashResultsLoop [] rest h)
    ∨ (identityKey e = none ∧ ∀ rest h, hashResultsLoop [] (e :: rest) h = none) := by
  cases e with
  | map m =>
    cases hg : generateHashKey m deletedResource.zero with
    | none =>
      right; right
      exact ⟨by simp [identityKey, keyUnder, hg], fun rest h => by simp [hashResultsLoop, hg]⟩
    | some kb =>
      obtain ⟨key, b⟩ := kb
      cases b with
      | true =>
        left
        exact ⟨key, by simp [identityKey, keyUnder, hg],
          fun rest h => by simp [hashResultsLoop, hg]⟩
      | false =>
        right; left
        exact ⟨by simp [identityKey, keyUnder, hg], fun rest h => by simp [hashResultsLoop, hg]⟩
  | _ =>
    right; right
    exact ⟨by simp [identityKey, keyUnder], fun rest h => by simp [hashResultsLoop]⟩

theorem hashResultsLoop_spec (D : List deletedResource) (R : List Value) :
    ∀ (h h1 : HashMap), hashResultsLoop D R h = some h1 →
      ((h.map Prod.fst).Nodup → (h1.map Prod.fst).Nodup) ∧
      ∀ k, h1.Get k =
        match lastMatch (fun e => seeds D e k) R with
        | some e => some e
        | none => h.Get k := by
  induction R with
  | nil =>
    intro h h1 hrun
    simp only [hashResultsLoop, Option.some.injEq] at hrun
    subst hrun
    simp [lastMatch]
  | cons e rest ih =>
    intro h h1 hrun
    by_cases hD : D.length ≠ 0
    · simp only [hashResultsLoop, hD, ne_eq, not_false_eq_true, if_true] at hrun
      cases hm : hashResultsMarkers e D h with
      | none => simp [hm] at hrun
      | some h2 =>
        simp only [hm] at hrun
        obtain ⟨hn2, hget2⟩ := hashResultsMarkers_spec e D h h2 hm
        obtain ⟨hn, hget⟩ := ih _ _ hrun
        refine ⟨fun hnd => hn (hn2 hnd), fun k => ?_⟩
        rw [hget k, hget2 k]
        simp only [lastMatch]
        cases lastMatch (fun e => seeds D e k) rest with
        | some x => rfl
        | none =>
          have hs : seeds D e k = D.any (fun dr => decide (keyUnder dr e = some k)) := by
            simp [seeds, hD]
          simp only [hs]
          split <;> rfl
    · have hD0 : D = [] := by
        cases D with
        | nil => rfl
        | cons a b => simp at hD
      subst hD0
      have hs : ∀ x k, seeds [] x k = decide (identityKey x = some k) := by
        intro x k
        simp [seeds]
      rcases hashResultsLoop_nil_step e with ⟨key, hid, hstep⟩ | ⟨hid, hstep⟩ | ⟨_, hstep⟩
      · rw [hstep] at hrun
        obtain ⟨hn, hget⟩ := ih _ _ hrun
        refine ⟨fun hnd => hn (nodup_set hnd _ _), fun k => ?_⟩
        rw [hget k]
        simp only [lastMatch]
        cases lastMatch (fun e => seeds [] e k) rest with
        | some x => rfl
        | none =>
          simp only [hs, hid, HashMap.Get, HashMap.Set, get?_set, Option.some.injEq]
          by_cases hkk : key = k <;> simp [hkk]
      · rw [hstep] at hrun
        obtain ⟨hn, hget⟩ := ih _ _ hrun
        refine ⟨hn, fun k => ?_⟩
        rw [hget k]
        simp only [lastMatch]
        cases lastMatch (fun e => seeds [] e k) rest with
        | some x => rfl
        | none => simp [hs, hid]
      · rw [hstep] at hrun
        exact Option.noConfusion hrun

theorem hashResultsLoop_total (D : List deletedResource) (R : List Value)
    (hR : ∀ e ∈ R, ∃ k, identityKey e = some k) :
    ∀ h : HashMap, ∃ h1, hashResultsLoop D R h = some h1 := by
  induction R with
  | nil => intro h; exact ⟨h, rfl⟩
  | cons e rest ih =>
    intro h
    have hrest : ∀ x ∈ rest, ∃ k, identityKey x = some k :=
      fun x hx => hR x (List.mem_cons_of_mem _ hx)
    obtain ⟨k0, hk0⟩ := hR e (List.mem_cons_self _ _)
    by_cases hD : D.length ≠ 0
    · obtain ⟨h2, hm⟩ := hashResultsMarkers_total hk0 D h
      simp only [hashResultsLoop, hD, ne_eq, not_false_eq_true, if_true, hm]
      exact ih hrest _
    · have hD0 : D = [] := by
        cases D with
        | nil => rfl
        | cons a b => simp at hD
      subst hD0
      rcases hashResultsLoop_nil_step e with ⟨key, _, hstep⟩ | ⟨hid, _⟩ | ⟨hid, _⟩
      · rw [hstep]
        exact ih hrest _
      · rw [hid] at hk0
        exact Option.noConfusion hk0
      · rw [hid] at hk0
        exact Option.noConfusion hk0

/-! ## The merge pass -/

/-- One round of the loop of `updateResults`: the entry is filed under its identity key and
the flag is raised when the key is bound, or the entry is skipped, or the call panics. -/
theorem updateResultsLoop_step (res : Value) :
    (∃ key, identityKey res = some key ∧ ∀ rest (h : HashMap) d,
        updateResultsLoop (res :: rest) h d
          = updateResultsLoop rest (HashMap.Set h key res) (d || (h.Get key).isSome))
    ∨ (identityKey res = none ∧ ∀ rest h d,
        updateResultsLoop (res :: rest) h d = updateResultsLoop rest h d)
    ∨ (∀ rest h d, updateResultsLoop (res :: rest) h d = none) := by
  cases res with
  | map m =>
    cases hg : generateHashKey m deletedResource.zero with
    | none =>
      right; right
      intro rest h d
      simp [updateResultsLoop, hg]
    | some kb =>
      obtain ⟨key, b⟩ := kb
      cases b with
      | true =>
        left
        refine ⟨key, by simp [identityKey, keyUnder, hg], fun rest h d => ?_⟩
        simp only [updateResultsLoop, hg]
        cases h.Get key <;> simp
      | false =>
        right; left
        exact ⟨by simp [identityKey, keyUnder, hg],
          fun rest h d => by simp [updateResultsLoop, hg]⟩
  | null => right; left; exact ⟨rfl, fun rest h d => by simp [updateResultsLoop]⟩
  | bool b => right; left; exact ⟨rfl, fun rest h d => by simp [updateResultsLoop]⟩
  | int i => right; left; exact ⟨rfl, fun rest h d => by simp [updateResultsLoop]⟩
  | str s => right; left; exact ⟨rfl, fun rest h d => by simp [updateResultsLoop]⟩
  | list xs => right; left; exact ⟨rfl, fun rest h d => by simp [updateResultsLoop]⟩

/-- Whether the merge pass panics depends on the new entries only. -/
theorem updateResultsLoop_total (N : List Value) :
    ∀ (h : HashMap) (d : Bool) (r : HashMap × Bool), updateResultsLoop N h d = some r →
      ∀ (h1 : HashMap) (d1 : Bool), ∃ r1, updateResultsLoop N h1 d1 = some r1 := by
  induction N with
  | nil => intro h d r _ h1 d1; exact ⟨(h1, d1), rfl⟩
  | cons res rest ih =>
    intro h d r hrun h1 d1
    rcases updateResultsLoop_step res with ⟨key, _, hstep⟩ | ⟨_, hstep⟩ | hstep
    · rw [hstep] at hrun ⊢
      exact ih _ _ _ hrun _ _
    · rw [hstep] at hrun ⊢
      exact ih _ _ _ hrun _ _
    · rw [hstep] at hrun
      exact Option.noConfusion hrun

theorem updateResultsLoop_spec (N : List Value) :
    ∀ (h h1 : HashMap) (d d1 : Bool), updateResultsLoop N h d = some (h1, d1) →
      ((h.map Prod.fst).Nodup → (h1.map Prod.fst).Nodup) ∧
      (∀ k, h1.Get k =
        match lastMatch (fun e => decide (identityKey e = some k)) N with
        | some e => some e
        | none => h.Get k) ∧
      (d1 = true ↔ d = true ∨ ∃ pre e post k, N = pre ++ e :: post ∧ identityKey e = some k ∧
        ((h.Get k).isSome = true ∨ ∃ e1 ∈ pre, identityKey e1 = some k)) := by
  induction N with
  | nil =>
    intro h h1 d d1 hrun
    simp only [updateResultsLoop, Option.some.injEq, Prod.mk.injEq] at hrun
    obtain ⟨hh, hd⟩ := hrun
    subst hh hd
    simp [lastMatch]
  | cons res rest ih =>
    intro h h1 d d1 hrun
    rcases updateResultsLoop_step res with ⟨key, hid, hstep⟩ | ⟨hid, hstep⟩ | hstep
    · rw [hstep] at hrun
      obtain ⟨hn, hget, hdup⟩ := ih _ _ _ _ hrun
      refine ⟨fun hnd => hn (nodup_set hnd _ _), fun k => ?_, ?_⟩
      · rw [hget k]
        simp only [lastMatch]
        cases lastMatch (fun e => decide (identityKey e = some k)) rest with
        | some x => rfl
        | none =>
          simp only [hid, HashMap.Get, HashMap.Set, get?_set, Option.some.injEq]
          by_cases hkk : key = k <;> simp [hkk]
      · rw [hdup]
        have hset : ∀ k, ((HashMap.Set h key res).Get k).isSome = true ↔
            key = k ∨ (h.Get k).isSome = true := by
          intro k
          simp only [HashMap.Get, HashMap.Set, get?_set]
          by_cases hkk : key = k <;> simp [hkk]
        constructor
        · rintro (hd | ⟨pre, e, post, k, hN, hke, hor⟩)
          · rcases Bool.or_eq_true _ _ ▸ hd with hd | hd
            · exact Or.inl hd
            · exact Or.inr ⟨[], res, rest, key, rfl, hid, Or.inl hd⟩
          · right
            refine ⟨res :: pre, e, post, k, by simp [hN], hke, ?_⟩
            rcases hor with hor | ⟨e1, he1, hk1⟩
            · rcases (hset k).1 hor with hkk | hg
              · exact Or.inr ⟨res, List.mem_cons_self _ _, hkk ▸ hid⟩
              · exact Or.inl hg
            · exact Or.inr ⟨e1, List.mem_cons_of_mem _ he1, hk1⟩
        · rintro (hd | ⟨pre, e, post, k, hN, hke, hor⟩)
          · left
            simp [hd]
          · cases pre with
            | nil =>
              simp only [List.nil_append, List.cons.injEq] at hN
              obtain ⟨hres, _⟩ := hN
              subst hres
              rw [hid] at hke
              have hkk : key = k := Option.some.inj hke
              subst hkk
              rcases hor with hor | ⟨e1, he1, _⟩
              · left
                simp [hor]
              · simp at he1
            | cons a pre1 =>
              simp only [List.cons_append, List.cons.injEq] at hN
              obtain ⟨hres, hrest⟩ := hN
              subst hres
              right
              refine ⟨pre1, e, post, k, hrest, hke, ?_⟩
              rcases hor with hor | ⟨e1, he1, hk1⟩
              · exact Or.inl ((hset k).2 (Or.inr hor))
              · rcases List.mem_cons.1 he1 with he | he
                · subst he
                  rw [hid] at hk1
                  exact Or.inl ((hset k).2 (Or.inl (Option.some.inj hk1)))
                · exact Or.inr ⟨e1, he, hk1⟩
    · rw [hstep] at hrun
      obtain ⟨hn, hget, hdup⟩ := ih _ _ _ _ hrun
      refine ⟨hn, fun k => ?_, ?_⟩
      · rw [hget k]
        simp only [lastMatch]
        cases lastMatch (fun e => decide (identityKey e = some k)) rest with
        | some x => rfl
        | none => simp [hid]
      · rw [hdup]
        constructor
        · rintro (hd | ⟨pre, e, post, k, hN, hke, hor⟩)
          · exact Or.inl hd
          · right
            refine ⟨res :: pre, e, post, k, by simp [hN], hke, ?_⟩
            rcases hor with hor | ⟨e1, he1, hk1⟩
            · exact Or.inl hor
            · exact Or.inr ⟨e1, List.mem_cons_of_mem _ he1, hk1⟩
        · rintro (hd | ⟨pre, e, post, k, hN, hke, hor⟩)
          · exact Or.inl hd
          · cases pre with
            | nil =>
              simp only [List.nil_append, List.cons.injEq] at hN
              obtain ⟨hres, _⟩ := hN
              subst hres
              rw [hid] at hke
              exact Option.noConfusion hke
            | cons a pre1 =>
              simp only [List.cons_append, List.cons.injEq] at hN
              obtain ⟨hres, hrest⟩ := hN
              subst hres
              right
              refine ⟨pre1, e, post, k, hrest, hke, ?_⟩
              rcases hor with hor | ⟨e1, he1, hk1⟩
              · exact Or.inl hor
              · rcases List.mem_cons.1 he1 with he | he
                · subst he
                  rw [hid] at hk1
                  exact Option.noConfusion hk1
                · exact Or.inr ⟨e1, he, hk1⟩
    · rw [hstep] at hrun
      exact Option.noConfusion hrun

/-! ## Extraction, conversion and summary -/

theorem getResultsFromHash_eq : ∀ (h : HashMap) (out : List Value),
    getResultsFromHash h = some out → out = h.map Prod.snd := by
  intro h
  induction h with
  | nil =>
    intro out hrun
    simp only [getResultsFromHash, Option.some.injEq] at hrun
    simp [← hrun]
  | cons kv rest ih =>
    intro out hrun
    obtain ⟨k, v⟩ := kv
    cases v with
    | map m =>
      simp only [getResultsFromHash] at hrun
      cases hr : getResultsFromHash rest with
      | none => simp [hr] at hrun
      | some results =>
        simp only [hr, Option.some.injEq] at hrun
        simp [← hrun, ih results hr]
    | _ => simp [getResultsFromHash] at hrun

theorem getResultsFromHash_total : ∀ (h : HashMap),
    (∀ kv ∈ h, ∃ m, kv.2 = Value.map m) → getResultsFromHash h = some (h.map Prod.snd) := by
  intro h
  induction h with
  | nil => intro _; rfl
  | cons kv rest ih =>
    intro hall
    obtain ⟨k, v⟩ := kv
    obtain ⟨m, hm⟩ := hall (k, v) (List.mem_cons_self _ _)
    simp only at hm
    subst hm
    simp [getResultsFromHash, ih (fun kv hkv => hall kv (List.mem_cons_of_mem _ hkv))]

theorem mapToStruct_ok_iff (p : Package) (l : List Value) :
    (∃ rs, mapToStruct p l = Except.ok rs) ↔ ∀ v ∈ l, ∃ r, decodeResult p v = Except.ok r := by
  induction l with
  | nil => simp [mapToStruct]
  | cons v rest ih =>
    simp only [mapToStruct, List.mem_cons, forall_eq_or_imp]
    cases hd : decodeResult p v with
    | error e => simp
    | ok r =>
      cases hm : mapToStruct p rest with
      | error e =>
        have : ¬ ∀ x ∈ rest, ∃ r, decodeResult p x = Except.ok r := by
          intro hc
          obtain ⟨rs, hrs⟩ := ih.2 hc
          rw [hm] at hrs
          exact Except.noConfusion hrs
        simp [this]
      | ok rs =>
        have : ∀ x ∈ rest, ∃ r, decodeResult p x = Except.ok r := ih.1 ⟨rs, hm⟩
        exact ⟨fun _ => ⟨⟨r, rfl⟩, this⟩, fun _ => ⟨r :: rs, rfl⟩⟩

/-- The tally of `updateSummary`, one status at a time, from any starting summary. -/
theorem updateSummary_foldl (results : List PolicyReportResult) :
    ∀ acc : PolicyReportSummary,
      results.foldl (fun summary result =>
        if result.Result = StatusPass then { summary with Pass := summary.Pass + 1 }
        else if result.Result = StatusFail then { summary with Fail := summary.Fail + 1 }
        else if result.Result = StatusWarn then { summary with Warn := summary.Warn + 1 }
        else if result.Result = StatusError then { summary with Error := summary.Error + 1 }
        else if result.Result = StatusSkip then { summary with Skip := summary.Skip + 1 }
        else summary) acc
      = { Pass := acc.Pass + results.countP (fun r => decide (r.Result = StatusPass))
          Fail := acc.Fail + results.countP (fun r => decide (r.Result = StatusFail))
          Warn := acc.Warn + results.countP (fun r => decide (r.Result = StatusWarn))
          Error := acc.Error + results.countP (fun r => decide (r.Result = StatusError))
          Skip := acc.Skip + results.countP (fun r => decide (r.Result = StatusSkip)) } := by
  induction results with
  | nil => intro acc; simp
  | cons r rest ih =>
    intro acc
    simp only [List.foldl_cons, ih, List.countP_cons]
    by_cases h1 : r.Result = StatusPass
    · have e2 : ¬ r.Result = StatusFail := by rw [h1]; decide
      have e3 : ¬ r.Result = StatusWarn := by rw [h1]; decide
      have e4 : ¬ r.Result = StatusError := by rw [h1]; decide
      have e5 : ¬ r.Result = StatusSkip := by rw [h1]; decide
      simp only [if_pos h1, decide_eq_true h1, decide_eq_false e2, decide_eq_false e3,
        decide_eq_false e4, decide_eq_false e5, if_true, Bool.false_eq_true,
        if_false, Nat.add_zero, Nat.add_assoc, Nat.add_comm 1]
    · by_cases h2 : r.Result = StatusFail
      · have e3 : ¬ r.Result = StatusWarn := by rw [h2]; decide
        have e4 : ¬ r.Result = StatusError := by rw [h2]; decide
        have e5 : ¬ r.Result = StatusSkip := by rw [h2]; decide
        simp only [if_neg h1, if_pos h2, decide_eq_false h1, decide_eq_true h2,
          decide_eq_false e3, decide_eq_false e4, decide_eq_false e5, if_true,
          Bool.false_eq_true, if_false, Nat.add_zero, Nat.add_assoc, Nat.add_comm 1]
      · by_cases h3 : r.Result = StatusWarn
        · have e4 : ¬ r.Result = StatusError := by rw [h3]; decide
          have e5 : ¬ r.Result = StatusSkip := by rw [h3]; decide
          simp only [if_neg h1, if_neg h2, if_pos h3, decide_eq_false h1, decide_eq_false h2,
            decide_eq_true h3, decide_eq_false e4, decide_eq_false e5, if_true,
            Bool.false_eq_true, if_false, Nat.add_zero, Nat.add_assoc, Nat.add_comm 1]
        · by_cases h4 : r.Result = StatusError
          · have e5 : ¬ r.Result = StatusSkip := by rw [h4]; decide
            simp only [if_neg h1, if_neg h2, if_neg h3, if_pos h4, decide_eq_false h1,
              decide_eq_false h2, decide_eq_false h3, decide_eq_true h4, decide_eq_false e5,
              if_true, Bool.false_eq_true, if_false, Nat.add_zero, Nat.add_assoc,
              Nat.add_comm 1]
          · by_cases h5 : r.Result = StatusSkip
            · simp only [if_neg h1, if_neg h2, if_neg h3, if_neg h4, if_pos h5,
                decide_eq_false h1, decide_eq_false h2, decide_eq_false h3,
                decide_eq_false h4, decide_eq_true h5, if_true, Bool.false_eq_true, if_false,
                Nat.add_zero, Nat.add_assoc, Nat.add_comm 1]
            · simp only [if_neg h1, if_neg h2, if_neg h3, if_neg h4, if_neg h5,
                decide_eq_false h1, decide_eq_false h2, decide_eq_false h3,
                decide_eq_false h4, decide_eq_false h5, Bool.false_eq_true, if_false,
                Nat.add_zero]

/-! ## The report updater, step by step -/

theorem mergedTable_eq (p : Package) (oldReport newReport : Object)
    (aggregatedRequests : AggregatedRequests) :
    mergedTable p oldReport newReport aggregatedRequests =
      match hashResults oldReport (getDeletedResources p aggregatedRequests) with
      | none => none
      | some T => updateResultsLoop (entriesOf newReport) T false := by
  unfold mergedTable entriesOf
  cases hashResults oldReport (getDeletedResources p aggregatedRequests) with
  | none => rfl
  | some T =>
    cases Object.get? newReport "results" with
    | none => simp [updateResultsLoop]
    | some v => cases v <;> simp [updateResultsLoop]

theorem hashResults_spec {oldReport : Object} {D : List deletedResource} {T : HashMap}
    (hT : hashResults oldReport D = some T) :
    (T.map Prod.fst).Nodup ∧
      ∀ k, T.Get k = lastMatch (fun e => seeds D e k) (entriesOf oldReport) := by
  unfold hashResults at hT
  unfold entriesOf
  cases hr : Object.get? oldReport "results" with
  | none =>
    simp only [hr, Option.some.injEq] at hT
    subst hT
    simp [lastMatch, Object.get?]
  | some v =>
    cases v with
    | list R =>
      simp only [hr] at hT
      obtain ⟨hn, hget⟩ := hashResultsLoop_spec D R [] T hT
      refine ⟨hn (by simp), fun k => ?_⟩
      rw [hget k]
      cases lastMatch (fun e => seeds D e k) R <;> simp [Object.get?]
    | _ => simp [hr] at hT

theorem hashResults_inv {oldReport : Object} {D : List deletedResource} {T : HashMap}
    (hT : hashResults oldReport D = some T) : TableInv T := by
  obtain ⟨hn, hget⟩ := hashResults_spec hT
  refine ⟨hn, fun k v hv => ?_⟩
  rw [hget k] at hv
  exact seeds_identityKey (lastMatch_mem hv).2

theorem updateResultsLoop_inv {N : List Value} {T F : HashMap} {d d1 : Bool}
    (hrun : updateResultsLoop N T d = some (F, d1)) (hT : TableInv T) : TableInv F := by
  obtain ⟨hn, hget, _⟩ := updateResultsLoop_spec N T F d d1 hrun
  refine ⟨hn hT.1, fun k v hv => ?_⟩
  rw [hget k] at hv
  cases hl : lastMatch (fun e => decide (identityKey e = some k)) N with
  | some e =>
    simp only [hl, Option.some.injEq] at hv
    subst hv
    exact of_decide_eq_true (lastMatch_mem hl).2
  | none =>
    simp only [hl] at hv
    exact hT.2 k v hv

theorem tableInv_values {F : HashMap} (hF : TableInv F) :
    getResultsFromHash F = some (F.map Prod.snd) := by
  apply getResultsFromHash_total
  intro kv hkv
  obtain ⟨k, v⟩ := kv
  obtain ⟨m, hm, _⟩ := identityKey_isMap (hF.2 k v (get?_of_mem hF.1 hkv))
  exact ⟨m, hm⟩

theorem tableInv_mem {F : HashMap} (hF : TableInv F) (e : Value) :
    e ∈ F.map Prod.snd ↔ ∃ k, F.Get k = some e := by
  constructor
  · intro he
    obtain ⟨kv, hkv, hsnd⟩ := List.mem_map.1 he
    obtain ⟨k, v⟩ := kv
    simp only at hsnd
    subst hsnd
    exact ⟨k, get?_of_mem hF.1 hkv⟩
  · rintro ⟨k, hk⟩
    exact List.mem_map.2 ⟨(k, e), mem_of_get? hk, rfl⟩

theorem tableInv_mem_key {F : HashMap} (hF : TableInv F) (e : Value) (k : String) :
    (e ∈ F.map Prod.snd ∧ identityKey e = some k) ↔ F.Get k = some e := by
  constructor
  · rintro ⟨he, hk⟩
    obtain ⟨k1, hk1⟩ := (tableInv_mem hF e).1 he
    have := hF.2 k1 e hk1
    rw [hk] at this
    rw [Option.some.inj this]
    exact hk1
  · intro hk
    exact ⟨(tableInv_mem hF e).2 ⟨k, hk⟩, hF.2 k e hk⟩

/-- What a call of `updateResults` that returns has computed on the way: the seeded
table, the merged table and flag. -/
theorem updateResults_returns {p : Package} {oldReport newReport : Object}
    {aggregatedRequests : AggregatedRequests} {rep : Option Object} {d : Bool}
    {err : Option Error}
    (hrun : updateResults p oldReport newReport aggregatedRequests = some (rep, d, err)) :
    ∃ T F, hashResults oldReport (getDeletedResources p aggregatedRequests) = some T ∧
      updateResultsLoop (entriesOf newReport) T false = some (F, d) ∧
      TableInv T ∧ TableInv F ∧
      ((err = none ∧ ∃ rs, mapToStruct p (F.map Prod.snd) = Except.ok rs ∧
          rep = some (Object.set (Object.set newReport "results" (Value.list (F.map Prod.snd)))
            "summary" (Value.map (updateSummary rs).ToMap)))
        ∨ (rep = none ∧ ∃ e, err = some e)) := by
  unfold updateResults at hrun
  rw [mergedTable_eq] at hrun
  cases hT : hashResults oldReport (getDeletedResources p aggregatedRequests) with
  | none => simp [hT] at hrun
  | some T =>
    simp only [hT] at hrun
    cases hl : updateResultsLoop (entriesOf newReport) T false with
    | none => simp [hl] at hrun
    | some Fd =>
      obtain ⟨F, d0⟩ := Fd
      have hTi := hashResults_inv hT
      have hFi := updateResultsLoop_inv hl hTi
      simp only [hl, tableInv_values hFi] at hrun
      cases hm : mapToStruct p (F.map Prod.snd) with
      | error e =>
        simp only [hm, Option.some.injEq, Prod.mk.injEq] at hrun
        obtain ⟨h1, h2, h3⟩ := hrun
        subst h2
        exact ⟨T, F, rfl, hl, hTi, hFi, Or.inr ⟨h1.symm, e, h3.symm⟩⟩
      | ok rs =>
        simp only [hm, Option.some.injEq, Prod.mk.injEq] at hrun
        obtain ⟨h1, h2, h3⟩ := hrun
        subst h2
        exact ⟨T, F, rfl, hl, hTi, hFi, Or.inl ⟨h3.symm, rs, hm, h1.symm⟩⟩

/-- The same for a call that succeeds, with the merged result list read from the returned
report. -/
theorem updateResults_succeeds {p : Package} {oldReport newReport : Object}
    {aggregatedRequests : AggregatedRequests} {R : Object} {d : Bool}
    (hrun : updateResults p oldReport newReport aggregatedRequests = some (some R, d, none)) :
    ∃ T F rs, hashResults oldReport (getDeletedResources p aggregatedRequests) = some T ∧
      updateResultsLoop (entriesOf newReport) T false = some (F, d) ∧
      TableInv T ∧ TableInv F ∧ mapToStruct p (F.map Prod.snd) = Except.ok rs ∧
      Object.index R "results" = Value.list (F.map Prod.snd) ∧
      Object.get? R "results" = some (Value.list (F.map Prod.snd)) ∧
      Object.index R "summary" = Value.map (updateSummary rs).ToMap ∧
      R = Object.set (Object.set newReport "results" (Value.list (F.map Prod.snd)))
            "summary" (Value.map (updateSummary rs).ToMap) := by
  obtain ⟨T, F, hT, hl, hTi, hFi, hcase⟩ := updateResults_returns hrun
  rcases hcase with ⟨_, rs, hm, hR⟩ | ⟨hR, _⟩
  · have hR1 := Option.some.inj hR
    refine ⟨T, F, rs, hT, hl, hTi, hFi, hm, ?_, ?_, ?_, hR1⟩
    · rw [hR1, index_set, index_set]
      simp
    · rw [hR1, get?_set, get?_set]
      simp
    · rw [hR1, index_set]
      simp
  · exact Option.noConfusion hR

theorem sample_run :
    updateResults samplePackage sampleOld sampleNew sampleRequests
      = some (some sampleMerged, true, none) := by rfl

theorem sample_seed :
    hashResults sampleOld (getDeletedResources samplePackage sampleRequests)
      = some sampleSeed := by rfl

theorem lastMatch_key_some {k : String} {N : List Value} {e : Value} :
    lastMatch (fun x => decide (identityKey x = some k)) N = some e ↔
      ∃ pre post, N = pre ++ e :: post ∧ identityKey e = some k ∧
        ∀ x ∈ post, identityKey x ≠ some k := by
  rw [lastMatch_some]
  simp only [decide_eq_true_eq, decide_eq_false_iff_not, ne_eq]

theorem lastMatch_key_none {k : String} {N : List Value} :
    lastMatch (fun x => decide (identityKey x = some k)) N = none ↔
      ∀ x ∈ N, identityKey x ≠ some k := by
  rw [lastMatch_none]
  simp only [decide_eq_false_iff_not, ne_eq]

theorem tableInv_pairwise {F : HashMap} (hF : TableInv F) :
    (F.map Prod.snd).Pairwise (fun a b => identityKey a ≠ identityKey b) := by
  rw [List.pairwise_map]
  have hn : F.Pairwise (fun a b => a.1 ≠ b.1) := by
    have := hF.1
    unfold List.Nodup at this
    rw [List.pairwise_map] at this
    exact this
  refine hn.imp_of_mem ?_
  intro a b ha hb hab
  obtain ⟨ka, va⟩ := a
  obtain ⟨kb, vb⟩ := b
  have h1 := hF.2 ka va (get?_of_mem hF.1 ha)
  have h2 := hF.2 kb vb (get?_of_mem hF.1 hb)
  simp only [h1, h2, ne_eq, Option.some.injEq]
  exact hab

/-- C3: after a successful `updateResults`, the merged result list, read as a map from
identity key to entry, is the seeded table overridden by the new entries: under a key
`k` it holds the last new entry with identity key `k` when there is one, the entry of the
seeded table under `k` otherwise, and nothing else (every merged entry has an identity
key). -/
theorem updateResults_last_write_wins (p : Package) (oldReport newReport : Object)
    (aggregatedRequests : AggregatedRequests) (R : Object) (d : Bool) (T : HashMap)
    (hrun : updateResults p oldReport newReport aggregatedRequests = some (some R, d, none))
    (hT : hashResults oldReport (getDeletedResources p aggregatedRequests) = some T) :
    ∃ out, Object.index R "results" = Value.list out ∧
      (∀ e ∈ out, ∃ k, identityKey e = some k) ∧
      ∀ k e, (e ∈ out ∧ identityKey e = some k) ↔
        ((∃ pre post, entriesOf newReport = pre ++ e :: post ∧ identityKey e = some k ∧
            ∀ x ∈ post, identityKey x ≠ some k)
          ∨ ((∀ x ∈ entriesOf newReport, identityKey x ≠ some k) ∧ T.Get k = some e)) := by
  obtain ⟨T1, F, rs, hT1, hl, _, hFi, _, hidx, _, _, _⟩ := updateResults_succeeds hrun
  rw [hT] at hT1
  have hTT := Option.some.inj hT1
  subst hTT
  obtain ⟨_, hget, _⟩ := updateResultsLoop_spec _ _ _ _ _ hl
  refine ⟨F.map Prod.snd, hidx, ?_, ?_⟩
  · intro e he
    obtain ⟨k, hk⟩ := (tableInv_mem hFi e).1 he
    exact ⟨k, hFi.2 k e hk⟩
  · intro k e
    rw [tableInv_mem_key hFi e k, hget k, ← lastMatch_key_some, ← lastMatch_key_none]
    cases hl : lastMatch (fun x => decide (identityKey x = some k)) (entriesOf newReport) with
    | some x => simp
    | none => simp

theorem updateResults_last_write_wins_witness :
    ∃ out, Object.index sampleMerged "results" = Value.list out ∧
      (∀ e ∈ out, ∃ k, identityKey e = some k) ∧
      ∀ k e, (e ∈ out ∧ identityKey e = some k) ↔
        ((∃ pre post, entriesOf sampleNew = pre ++ e :: post ∧ identityKey e = some k ∧
            ∀ x ∈ post, identityKey x ≠ some k)
          ∨ ((∀ x ∈ entriesOf sampleNew, identityKey x ≠ some k) ∧
              sampleSeed.Get k = some e)) :=
  updateResults_last_write_wins samplePackage sampleOld sampleNew sampleRequests sampleMerged
    true sampleSeed sample_run sample_seed

/-- C4: after a successful `updateResults`, every entry of the merged result list has an
identity key (`generateHashKey` with the zero-value marker answers `ok = true`), and two
entries at distinct positions have different identity keys. -/
theorem updateResults_keys_distinct (p : Package) (oldReport newReport : Object)
    (aggregatedRequests : AggregatedRequests) (R : Object) (d : Bool)
    (hrun : updateResults p oldReport newReport aggregatedRequests = some (some R, d, none)) :
    ∃ out, Object.index R "results" = Value.list out ∧
      (∀ e ∈ out, ∃ m key, e = Value.map m ∧
        generateHashKey m deletedResource.zero = some (key, true)) ∧
      (∀ (i j : Nat) (hi : i < out.length) (hj : j < out.length), i ≠ j →
        identityKey (out.get ⟨i, hi⟩) ≠ identityKey (out.get ⟨j, hj⟩)) := by
  obtain ⟨T1, F, rs, _, _, _, hFi, _, hidx, _, _, _⟩ := updateResults_succeeds hrun
  refine ⟨F.map Prod.snd, hidx, ?_, ?_⟩
  · intro e he
    obtain ⟨k, hk⟩ := (tableInv_mem hFi e).1 he
    obtain ⟨m, hm, hg⟩ := identityKey_isMap (hFi.2 k e hk)
    exact ⟨m, k, hm, hg⟩
  · have hp := tableInv_pairwise hFi
    intro i j hi hj hij
    rcases Nat.lt_or_gt_of_ne hij with h | h
    · exact List.pairwise_iff_get.1 hp ⟨i, hi⟩ ⟨j, hj⟩ h
    · exact fun heq => List.pairwise_iff_get.1 hp ⟨j, hj⟩ ⟨i, hi⟩ h heq.symm

theorem updateResults_keys_distinct_witness :
    ∃ out, Object.index sampleMerged "results" = Value.list out ∧
      (∀ e ∈ out, ∃ m key, e = Value.map m ∧
        generateHashKey m deletedResource.zero = some (key, true)) ∧
      (∀ (i j : Nat) (hi : i < out.length) (hj : j < out.length), i ≠ j →
        identityKey (out.get ⟨i, hi⟩) ≠ identityKey (out.get ⟨j, hj⟩)) :=
  updateResults_keys_distinct samplePackage sampleOld sampleNew sampleRequests sampleMerged
    true sample_run

/-- C6, the code at the failing input: the old entry for the pod `x/y` is suppressed by
the first of two markers, and the table seeded under both markers still holds it,
because the evaluation against the second marker files it. -/
theorem hashResults_two_markers_keeps_suppressed :
    suppressedBy { kind := "Pod", ns := "x", name := "y" }
        (sampleEntry "p" "r" "Pod" "x" "y" "pass")
    ∧ hashResults [("results", Value.list [sampleEntry "p" "r" "Pod" "x" "y" "pass"])]
        [{ kind := "Pod", ns := "x", name := "y" }, { kind := "Pod", ns := "x", name := "z" }]
      = some [("p-r-Pod-x-y", sampleEntry "p" "r" "Pod" "x" "y" "pass")]
    ∧ hashResults [("results", Value.list [sampleEntry "p" "r" "Pod" "x" "y" "pass"])]
        [{ kind := "Pod", ns := "x", name := "y" }]
      = some [] :=
  ⟨⟨⟨"p-r-Pod-x-y", rfl⟩, rfl⟩, rfl, rfl⟩

/-! ## Duplicate flag -/

/-- C7: whenever `updateResults` returns, its flag is true exactly when some new entry with
an identity key finds that key bound in the seeded table or equal to the identity key of
an earlier new entry.  For a single new entry `E1` with an identity key: the flag is true
when the seeded table binds that key, and false when the seeded table is empty. -/
theorem updateResults_duplicate_flag (p : Package) (oldReport newReport : Object)
    (aggregatedRequests : AggregatedRequests) (rep : Option Object) (d : Bool)
    (err : Option Error) (T : HashMap)
    (hrun : updateResults p oldReport newReport aggregatedRequests = some (rep, d, err))
    (hT : hashResults oldReport (getDeletedResources p aggregatedRequests) = some T) :
    (d = true ↔ ∃ pre e post k, entriesOf newReport = pre ++ e :: post ∧
        identityKey e = some k ∧
        ((T.Get k).isSome = true ∨ ∃ e1 ∈ pre, identityKey e1 = some k))
    ∧ (∀ E1 k, entriesOf newReport = [E1] → identityKey E1 = some k →
        ((T.Get k).isSome = true → d = true) ∧ (T = [] → d = false)) := by
  obtain ⟨T1, F, hT1, hl, _, _, _⟩ := updateResults_returns hrun
  rw [hT] at hT1
  have hTT := Option.some.inj hT1
  subst hTT
  obtain ⟨_, _, hdup⟩ := updateResultsLoop_spec _ _ _ _ _ hl
  have hmain : d = true ↔ ∃ pre e post k, entriesOf newReport = pre ++ e :: post ∧
        identityKey e = some k ∧
        ((T.Get k).isSome = true ∨ ∃ e1 ∈ pre, identityKey e1 = some k) := by
    rw [hdup]
    simp
  refine ⟨hmain, ?_⟩
  intro E1 k hN hk
  constructor
  · intro hbound
    exact hmain.2 ⟨[], E1, [], k, by simp [hN], hk, Or.inl hbound⟩
  · intro hempty
    subst hempty
    cases hd : d with
    | false => rfl
    | true =>
      obtain ⟨pre, e, post, k1, hsplit, _, hor⟩ := hmain.1 hd
      rw [hN] at hsplit
      cases pre with
      | nil =>
        rcases hor with hor | ⟨e1, he1, _⟩
        · simp [HashMap.Get, Object.get?] at hor
        · simp at he1
      | cons a pre1 =>
        simp only [List.cons_append, List.cons.injEq] at hsplit
        have := hsplit.2
        simp at this

theorem updateResults_duplicate_flag_witness :
    ((true = true ↔ ∃ pre e post k, entriesOf sampleSingle = pre ++ e :: post ∧
          identityKey e = some k ∧
          ((sampleSeed.Get k).isSome = true ∨ ∃ e1 ∈ pre, identityKey e1 = some k))
      ∧ (∀ E1 k, entriesOf sampleSingle = [E1] → identityKey E1 = some k →
          ((sampleSeed.Get k).isSome = true → true = true) ∧ (sampleSeed = [] → true = false)))
    ∧ ((false = true ↔ ∃ pre e post k, entriesOf sampleSingle = pre ++ e :: post ∧
          identityKey e = some k ∧
          ((HashMap.Get [] k).isSome = true ∨ ∃ e1 ∈ pre, identityKey e1 = some k))
      ∧ (∀ E1 k, entriesOf sampleSingle = [E1] → identityKey E1 = some k →
          ((HashMap.Get [] k).isSome = true → false = true)
            ∧ (([] : HashMap) = [] → false = false))) :=
  ⟨updateResults_duplicate_flag samplePackage sampleOld sampleSingle sampleRequests
      (some sampleSingleMerged) true none sampleSeed rfl sample_seed,
   updateResults_duplicate_flag samplePackage [] sampleSingle AggregatedRequests.other
      (some sampleSingleMerged) false none [] rfl rfl⟩

/-! ## Idempotence -/

theorem updateResults_of_steps {p : Package} {oldReport newReport : Object}
    {aggregatedRequests : AggregatedRequests} {T F : HashMap} {d : Bool}
    {rs : List PolicyReportResult}
    (hT : hashResults oldReport (getDeletedResources p aggregatedRequests) = some T)
    (hl : updateResultsLoop (entriesOf newReport) T false = some (F, d))
    (hF : TableInv F) (hm : mapToStruct p (F.map Prod.snd) = Except.ok rs) :
    updateResults p oldReport newReport aggregatedRequests
      = some (some (Object.set (Object.set newReport "results" (Value.list (F.map Prod.snd)))
          "summary" (Value.map (updateSummary rs).ToMap)), d, none) := by
  unfold updateResults
  rw [mergedTable_eq]
  simp only [hT, hl, tableInv_values hF, hm]

/-- In a list with pairwise different identity keys, the last entry that satisfies a
predicate of the entries with identity key `k` is any entry that satisfies it. -/
theorem lastMatch_unique {q : Value → Bool} {k : String}
    (hq : ∀ x, q x = true → identityKey x = some k) {l : List Value}
    (hp : l.Pairwise (fun a b => identityKey a ≠ identityKey b)) {e : Value}
    (he : e ∈ l) (hs : q e = true) : lastMatch q l = some e := by
  obtain ⟨pre, post, hsplit⟩ := List.append_of_mem he
  refine lastMatch_some.2 ⟨pre, post, hsplit, hs, ?_⟩
  intro x hx
  rw [hsplit] at hp
  have hp2 := (List.pairwise_append.1 hp).2.1
  have hne := (List.pairwise_cons.1 hp2).1 x hx
  cases hsx : q x with
  | false => rfl
  | true =>
    rw [hq e hs, hq x hsx] at hne
    exact absurd rfl hne

/-- The merge pass does not panic on entries that all have an identity key. -/
theorem updateResultsLoop_total_keys (N : List Value)
    (hN : ∀ e ∈ N, ∃ k, identityKey e = some k) :
    ∀ (h : HashMap) (d : Bool), ∃ r, updateResultsLoop N h d = some r := by
  induction N with
  | nil => intro h d; exact ⟨(h, d), rfl⟩
  | cons res rest ih =>
    intro h d
    have hrest : ∀ x ∈ rest, ∃ k, identityKey x = some k :=
      fun x hx => hN x (List.mem_cons_of_mem _ hx)
    rcases updateResultsLoop_step res with ⟨key, _, hstep⟩ | ⟨_, hstep⟩ | hstep
    · rw [hstep]
      exact ih hrest _ _
    · rw [hstep]
      exact ih hrest _ _
    · obtain ⟨k, hk⟩ := hN res (List.mem_cons_self _ _)
      obtain ⟨m, hm, hg⟩ := identityKey_isMap hk
      subst hm
      have := hstep [] [] false
      simp [updateResultsLoop, hg, HashMap.Get, Object.get?] at this

/-- C8: idempotence.  When `updateResults` succeeds with the merged report `R1`, the call
with `R1` as the old report, the same new report and the same fragments succeeds too,
and its result list has the same entries as the result list of `R1`.  The same holds
when the new report of the second call is `R1` itself, the map the first call wrote
into and returned. -/
theorem updateResults_idempotent (p : Package) (oldReport newReport : Object)
    (aggregatedRequests : AggregatedRequests) (R1 : Object) (d1 : Bool)
    (hrun : updateResults p oldReport newReport aggregatedRequests
      = some (some R1, d1, none)) :
    (∃ R2 d2 out1 out2,
      updateResults p R1 newReport aggregatedRequests = some (some R2, d2, none) ∧
      Object.index R1 "results" = Value.list out1 ∧
      Object.index R2 "results" = Value.list out2 ∧
      ∀ e, e ∈ out2 ↔ e ∈ out1)
    ∧ (∃ R3 d3 out1 out3,
      updateResults p R1 R1 aggregatedRequests = some (some R3, d3, none) ∧
      Object.index R1 "results" = Value.list out1 ∧
      Object.index R3 "results" = Value.list out3 ∧
      ∀ e, e ∈ out3 ↔ e ∈ out1) := by
  obtain ⟨T1, F1, rs1, hT1, hl1, hT1i, hF1i, hm1, hidx1, hget1, _, _⟩ :=
    updateResults_succeeds hrun
  have hent : entriesOf R1 = F1.map Prod.snd := by simp [entriesOf, hget1]
  have hkeys : ∀ e ∈ F1.map Prod.snd, ∃ k, identityKey e = some k := by
    intro e he
    obtain ⟨k, hk⟩ := (tableInv_mem hF1i e).1 he
    exact ⟨k, hF1i.2 k e hk⟩
  obtain ⟨T2, hT2loop⟩ := hashResultsLoop_total (getDeletedResources p aggregatedRequests)
    (F1.map Prod.snd) hkeys []
  have hT2 : hashResults R1 (getDeletedResources p aggregatedRequests) = some T2 := by
    simp only [hashResults, hget1, hT2loop]
  have hT2i := hashResults_inv hT2
  obtain ⟨_, hg1, _⟩ := updateResultsLoop_spec _ _ _ _ _ hl1
  obtain ⟨_, hs1⟩ := hashResults_spec hT1
  obtain ⟨_, hs2⟩ := hashResults_spec hT2
  rw [hent] at hs2
  have hpair := tableInv_pairwise hF1i
  -- the table seeded from `R1` binds nothing that the first merged table does not bind
  have hT2sub : ∀ k e, T2.Get k = some e → F1.Get k = some e := by
    intro k e hk
    rw [hs2 k] at hk
    obtain ⟨hx, hsx⟩ := lastMatch_mem hk
    exact (tableInv_mem_key hF1i e k).1 ⟨hx, seeds_identityKey hsx⟩
  have hdecode : ∀ (F : HashMap), (∀ e, e ∈ F.map Prod.snd ↔ e ∈ F1.map Prod.snd) →
      ∃ rs, mapToStruct p (F.map Prod.snd) = Except.ok rs := by
    intro F hmem
    refine (mapToStruct_ok_iff p (F.map Prod.snd)).2 ?_
    intro v hv
    exact (mapToStruct_ok_iff p (F1.map Prod.snd)).1 ⟨rs1, hm1⟩ v ((hmem v).1 hv)
  constructor
  · obtain ⟨⟨F2, d2⟩, hl2⟩ := updateResultsLoop_total _ _ _ _ hl1 T2 false
    have hF2i := updateResultsLoop_inv hl2 hT2i
    obtain ⟨_, hg2, _⟩ := updateResultsLoop_spec _ _ _ _ _ hl2
    have hsame : ∀ k, F2.Get k = F1.Get k := by
      intro k
      rw [hg1 k, hg2 k]
      cases hlm : lastMatch (fun x => decide (identityKey x = some k))
          (entriesOf newReport) with
      | some x => rfl
      | none =>
        simp only
        have hF1k : F1.Get k = T1.Get k := by rw [hg1 k, hlm]
        cases hT1k : T1.Get k with
        | some e =>
          have hse : seeds (getDeletedResources p aggregatedRequests) e k = true := by
            rw [hs1 k] at hT1k
            exact (lastMatch_mem hT1k).2
          have hmem : e ∈ F1.map Prod.snd :=
            (tableInv_mem hF1i e).2 ⟨k, by rw [hF1k, hT1k]⟩
          rw [hs2 k]
          exact lastMatch_unique (fun x hx => seeds_identityKey hx) hpair hmem hse
        | none =>
          cases hT2k : T2.Get k with
          | none => rfl
          | some x =>
            have := hT2sub k x hT2k
            rw [hF1k, hT1k] at this
            exact Option.noConfusion this
    have hmem : ∀ e, e ∈ F2.map Prod.snd ↔ e ∈ F1.map Prod.snd := by
      intro e
      rw [tableInv_mem hF2i, tableInv_mem hF1i]
      simp only [hsame]
    obtain ⟨rs2, hm2⟩ := hdecode F2 hmem
    have hrun2 := updateResults_of_steps hT2 hl2 hF2i hm2
    refine ⟨_, d2, F1.map Prod.snd, _, hrun2, hidx1, ?_, hmem⟩
    rw [index_set, index_set]
    simp
  · obtain ⟨⟨F3, d3⟩, hl3⟩ := updateResultsLoop_total_keys (entriesOf R1)
      (by rw [hent]; exact hkeys) T2 false
    have hF3i := updateResultsLoop_inv hl3 hT2i
    obtain ⟨_, hg3, _⟩ := updateResultsLoop_spec _ _ _ _ _ hl3
    rw [hent] at hg3
    have hsame : ∀ k, F3.Get k = F1.Get k := by
      intro k
      rw [hg3 k]
      cases hF1k : F1.Get k with
      | some e =>
        obtain ⟨hmem, hke⟩ := (tableInv_mem_key hF1i e k).2 hF1k
        rw [lastMatch_unique (fun x hx => of_decide_eq_true hx) hpair hmem
          (decide_eq_true hke)]
      | none =>
        cases hlm : lastMatch (fun x => decide (identityKey x = some k))
            (F1.map Prod.snd) with
        | some x =>
          obtain ⟨hx, hqx⟩ := lastMatch_mem hlm
          have := (tableInv_mem_key hF1i x k).1 ⟨hx, of_decide_eq_true hqx⟩
          rw [hF1k] at this
          exact Option.noConfusion this
        | none =>
          simp only
          cases hT2k : T2.Get k with
          | none => rfl
          | some x =>
            have := hT2sub k x hT2k
            rw [hF1k] at this
            exact Option.noConfusion this
    have hmem : ∀ e, e ∈ F3.map Prod.snd ↔ e ∈ F1.map Prod.snd := by
      intro e
      rw [tableInv_mem hF3i, tableInv_mem hF1i]
      simp only [hsame]
    obtain ⟨rs3, hm3⟩ := hdecode F3 hmem
    have hrun3 := updateResults_of_steps hT2 hl3 hF3i hm3
    refine ⟨_, d3, F1.map Prod.snd, _, hrun3, hidx1, ?_, hmem⟩
    rw [index_set, index_set]
    simp

theorem updateResults_idempotent_witness :
    (∃ R2 d2 out1 out2,
      updateResults samplePackage sampleMerged sampleNew sampleRequests
        = some (some R2, d2, none) ∧
      Object.index sampleMerged "results" = Value.list out1 ∧
      Object.index R2 "results" = Value.list out2 ∧
      ∀ e, e ∈ out2 ↔ e ∈ out1)
    ∧ (∃ R3 d3 out1 out3,
      updateResults samplePackage sampleMerged sampleMerged sampleRequests
        = some (some R3, d3, none) ∧
      Object.index sampleMerged "results" = Value.list out1 ∧
      Object.index R3 "results" = Value.list out3 ∧
      ∀ e, e ∈ out3 ↔ e ∈ out1) :=
  updateResults_idempotent samplePackage sampleOld sampleNew sampleRequests sampleMerged
    true sample_run

/-! ## Summary of the merged report -/

theorem updateSummary_eq (results : List PolicyReportResult) :
    updateSummary results =
      { Pass := results.countP (fun r => decide (r.Result = StatusPass))
        Fail := results.countP (fun r => decide (r.Result = StatusFail))
        Warn := results.countP (fun r => decide (r.Result = StatusWarn))
        Error := results.countP (fun r => decide (r.Result = StatusError))
        Skip := results.countP (fun r => decide (r.Result = StatusSkip)) } := by
  unfold updateSummary
  rw [updateSummary_foldl]
  simp

/-- C10: for every list of typed result entries, each of the five counters of
`updateSummary` is the number of entries with exactly that status, and an entry whose
status is none of the five recognized values changes no counter (the function is total:
no input is an error). -/
theorem updateSummary_counts (results : List PolicyReportResult) :
    (updateSummary results).Pass = results.countP (fun r => decide (r.Result = StatusPass))
    ∧ (updateSummary results).Fail = results.countP (fun r => decide (r.Result = StatusFail))
    ∧ (updateSummary results).Warn = results.countP (fun r => decide (r.Result = StatusWarn))
    ∧ (updateSummary results).Error
        = results.countP (fun r => decide (r.Result = StatusError))
    ∧ (updateSummary results).Skip = results.countP (fun r => decide (r.Result = StatusSkip))
    ∧ (∀ (r : PolicyReportResult) (pre post : List PolicyReportResult),
        results = pre ++ r :: post →
        r.Result ≠ StatusPass → r.Result ≠ StatusFail → r.Result ≠ StatusWarn →
        r.Result ≠ StatusError → r.Result ≠ StatusSkip →
        updateSummary results = updateSummary (pre ++ post)) := by
  refine ⟨?_, ?_, ?_, ?_, ?_, ?_⟩
  · rw [updateSummary_eq]
  · rw [updateSummary_eq]
  · rw [updateSummary_eq]
  · rw [updateSummary_eq]
  · rw [updateSummary_eq]
  · intro r pre post hsplit h1 h2 h3 h4 h5
    rw [hsplit, updateSummary_eq, updateSummary_eq]
    simp [List.countP_append, List.countP_cons, h1, h2, h3, h4, h5]

theorem updateSummary_counts_witness :
    updateSummary [{ Result := "pass" }, { Result := "unknown" }, { Result := "skip" }]
      = updateSummary ([{ Result := "pass" }] ++ [{ Result := "skip" }]) :=
  (updateSummary_counts
      [{ Result := "pass" }, { Result := "unknown" }, { Result := "skip" }]).2.2.2.2.2
    { Result := "unknown" } [{ Result := "pass" }] [{ Result := "skip" }] rfl
    (by decide) (by decide) (by decide) (by decide) (by decide)

/-! ## Summary: bound on the counters -/

theorem countP_status_partition (results : List PolicyReportResult) :
    results.countP (fun r => decide (r.Result = StatusPass))
      + results.countP (fun r => decide (r.Result = StatusFail))
      + results.countP (fun r => decide (r.Result = StatusWarn))
      + results.countP (fun r => decide (r.Result = StatusError))
      + results.countP (fun r => decide (r.Result = StatusSkip))
      + results.countP (fun r => !recognized r.Result) = results.length := by
  induction results with
  | nil => simp
  | cons r rest ih =>
    simp only [List.countP_cons, List.length_cons, recognized]
    by_cases h1 : r.Result = StatusPass
    · have e2 : ¬ r.Result = StatusFail := by rw [h1]; decide
      have e3 : ¬ r.Result = StatusWarn := by rw [h1]; decide
      have e4 : ¬ r.Result = StatusError := by rw [h1]; decide
      have e5 : ¬ r.Result = StatusSkip := by rw [h1]; decide
      simp only [decide_eq_true h1, decide_eq_false e2, decide_eq_false e3,
        decide_eq_false e4, decide_eq_false e5, recognized] at ih ⊢
      simp only [Bool.or_false, Bool.not_true, Bool.false_eq_true, if_false, if_true] at ih ⊢
      omega
    · by_cases h2 : r.Result = StatusFail
      · have e3 : ¬ r.Result = StatusWarn := by rw [h2]; decide
        have e4 : ¬ r.Result = StatusError := by rw [h2]; decide
        have e5 : ¬ r.Result = StatusSkip := by rw [h2]; decide
        simp only [decide_eq_false h1, decide_eq_true h2, decide_eq_false e3,
          decide_eq_false e4, decide_eq_false e5, recognized] at ih ⊢
        simp only [Bool.or_false, Bool.false_or, Bool.not_true, Bool.false_eq_true, if_false,
          if_true] at ih ⊢
        omega
      · by_cases h3 : r.Result = StatusWarn
        · have e4 : ¬ r.Result = StatusError := by rw [h3]; decide
          have e5 : ¬ r.Result = StatusSkip := by rw [h3]; decide
          simp only [decide_eq_false h1, decide_eq_false h2, decide_eq_true h3,
            decide_eq_false e4, decide_eq_false e5, recognized] at ih ⊢
          simp only [Bool.or_false, Bool.false_or, Bool.not_true, Bool.false_eq_true, if_false,
            if_true] at ih ⊢
          omega
        · by_cases h4 : r.Result = StatusError
          · have e5 : ¬ r.Result = StatusSkip := by rw [h4]; decide
            simp only [decide_eq_false h1, decide_eq_false h2, decide_eq_false h3,
              decide_eq_true h4, decide_eq_false e5, recognized] at ih ⊢
            simp only [Bool.or_false, Bool.false_or, Bool.not_true, Bool.false_eq_true,
              if_false, if_true] at ih ⊢
            omega
          · by_cases h5 : r.Result = StatusSkip
            · simp only [decide_eq_false h1, decide_eq_false h2, decide_eq_false h3,
                decide_eq_false h4, decide_eq_true h5, recognized] at ih ⊢
              simp only [Bool.or_false, Bool.false_or, Bool.not_true, Bool.false_eq_true,
                if_false, if_true] at ih ⊢
              omega
            · simp only [decide_eq_false h1, decide_eq_false h2, decide_eq_false h3,
                decide_eq_false h4, decide_eq_false h5, recognized] at ih ⊢
              simp only [Bool.or_false, Bool.not_false, Bool.false_eq_true, if_false,
                if_true] at ih ⊢
              omega

/-- C11: the five counters of `updateSummary` add up to at most the length of the list,
and to exactly the length if and only if every entry's status is one of the five
recognized values. -/
theorem updateSummary_sum_le (results : List PolicyReportResult) :
    (updateSummary results).Pass + (updateSummary results).Fail + (updateSummary results).Warn
        + (updateSummary results).Error + (updateSummary results).Skip ≤ results.length
    ∧ ((updateSummary results).Pass + (updateSummary results).Fail
          + (updateSummary results).Warn + (updateSummary results).Error
          + (updateSummary results).Skip = results.length
        ↔ ∀ r ∈ results, r.Result = StatusPass ∨ r.Result = StatusFail ∨
            r.Result = StatusWarn ∨ r.Result = StatusError ∨ r.Result = StatusSkip) := by
  have hpart := countP_status_partition results
  have hzero : results.countP (fun r => !recognized r.Result) = 0 ↔
      ∀ r ∈ results, r.Result = StatusPass ∨ r.Result = StatusFail ∨
        r.Result = StatusWarn ∨ r.Result = StatusError ∨ r.Result = StatusSkip := by
    rw [List.countP_eq_zero]
    simp only [recognized, Bool.not_eq_true', Bool.not_eq_false, Bool.or_eq_true,
      decide_eq_true_eq, or_assoc]
  rw [updateSummary_eq]
  simp only
  constructor
  · omega
  · rw [← hzero]
    omega

/-! ## Entries with an empty resources list -/

theorem set_set (m : Object) (k : String) (v w : Value) :
    Object.set (Object.set m k v) k w = Object.set m k w := by
  induction m with
  | nil => simp [Object.set]
  | cons hd tl ih =>
    obtain ⟨a, b⟩ := hd
    by_cases h : a = k
    · simp [Object.set, h]
    · simp [Object.set, h, ih]

/-- An entry with an empty resources list is a map on which `generateHashKey` answers
`("", false)` for every marker. -/
theorem emptyResources_skipped {e : Value} (he : emptyResources e = true) :
    ∃ m, e = Value.map m ∧ ∀ dr, generateHashKey m dr = some ("", false) := by
  cases e with
  | map m =>
    refine ⟨m, rfl, fun dr => ?_⟩
    simp only [emptyResources] at he
    cases hres : Object.index m "resources" with
    | list xs =>
      cases xs with
      | nil => simp [generateHashKey, hres]
      | cons a b => simp [hres] at he
    | _ => simp [hres] at he
  | _ => simp [emptyResources] at he

theorem emptyResources_identityKey {e : Value} (he : emptyResources e = true) :
    identityKey e = none := by
  obtain ⟨m, hm, hg⟩ := emptyResources_skipped he
  subst hm
  simp [identityKey, keyUnder, hg]

theorem hashResultsMarkers_empty {e : Value} (he : emptyResources e = true)
    (D : List deletedResource) (h : HashMap) : hashResultsMarkers e D h = some h := by
  obtain ⟨m, hm, hg⟩ := emptyResources_skipped he
  subst hm
  induction D with
  | nil => rfl
  | cons dr rest ih => simp [hashResultsMarkers, hg, ih]

theorem hashResultsLoop_filter (D : List deletedResource) (R : List Value) :
    ∀ h : HashMap, hashResultsLoop D (R.filter (fun e => !emptyResources e)) h
      = hashResultsLoop D R h := by
  induction R with
  | nil => intro h; rfl
  | cons e rest ih =>
    intro h
    cases he : emptyResources e with
    | true =>
      simp only [List.filter_cons, he, Bool.not_true, Bool.false_eq_true, if_false]
      rw [ih]
      obtain ⟨m, hm, hg⟩ := emptyResources_skipped he
      by_cases hD : D.length ≠ 0
      · simp [hashResultsLoop, hD, hashResultsMarkers_empty he]
      · subst hm
        simp [hashResultsLoop, hD, hg]
    | false =>
      simp only [List.filter_cons, he, Bool.not_false, if_true]
      by_cases hD : D.length ≠ 0
      · simp only [hashResultsLoop, hD, ne_eq, not_false_eq_true, if_true]
        cases hashResultsMarkers e D h with
        | none => rfl
        | some h1 => exact ih h1
      · have hD0 : D = [] := by
          cases D with
          | nil => rfl
          | cons a b => simp at hD
        subst hD0
        rcases hashResultsLoop_nil_step e with ⟨key, _, hstep⟩ | ⟨_, hstep⟩ | ⟨_, hstep⟩
        · rw [hstep, hstep]
          exact ih _
        · rw [hstep, hstep]
          exact ih _
        · rw [hstep, hstep]

theorem updateResultsLoop_filter (N : List Value) :
    ∀ (h : HashMap) (d : Bool),
      updateResultsLoop (N.filter (fun e => !emptyResources e)) h d
        = updateResultsLoop N h d := by
  induction N with
  | nil => intro h d; rfl
  | cons e rest ih =>
    intro h d
    cases he : emptyResources e with
    | true =>
      simp only [List.filter_cons, he, Bool.not_true, Bool.false_eq_true, if_false]
      rw [ih]
      obtain ⟨m, hm, hg⟩ := emptyResources_skipped he
      subst hm
      simp [updateResultsLoop, hg]
    | false =>
      simp only [List.filter_cons, he, Bool.not_false, if_true]
      rcases updateResultsLoop_step e with ⟨key, _, hstep⟩ | ⟨_, hstep⟩ | hstep
      · rw [hstep, hstep]
        exact ih _ _
      · rw [hstep, hstep]
        exact ih _ _
      · rw [hstep, hstep]

theorem hashResults_withoutEmptyResources (report : Object) (D : List deletedResource) :
    hashResults (withoutEmptyResources report) D = hashResults report D := by
  unfold withoutEmptyResources
  cases hr : Object.get? report "results" with
  | none => rfl
  | some v =>
    cases v with
    | list xs =>
      simp only [hashResults, get?_set, hr, if_true]
      exact hashResultsLoop_filter D xs []
    | _ => rfl

theorem entriesOf_withoutEmptyResources (report : Object) :
    entriesOf (withoutEmptyResources report)
      = (entriesOf report).filter (fun e => !emptyResources e) := by
  unfold withoutEmptyResources
  cases hr : Object.get? report "results" with
  | none => simp [entriesOf, hr]
  | some v =>
    cases v with
    | list xs => simp [entriesOf, hr, get?_set]
    | _ => simp [entriesOf, hr]

theorem set_withoutEmptyResources (report : Object) (v : Value) :
    Object.set (withoutEmptyResources report) "results" v = Object.set report "results" v := by
  unfold withoutEmptyResources
  cases hr : Object.get? report "results" with
  | none => rfl
  | some w =>
    cases w with
    | list xs => simp only [set_set]
    | _ => rfl

/-- C12: entries with an empty resources list.  Removing them from the old and from the
new report changes nothing of what `updateResults` returns (the merged result list, the
flag, the error, or the panic), and no such entry is in the merged result list of a
successful call. -/
theorem updateResults_emptyResources (p : Package) (oldReport newReport : Object)
    (aggregatedRequests : AggregatedRequests) :
    updateResults p (withoutEmptyResources oldReport) (withoutEmptyResources newReport)
        aggregatedRequests
      = updateResults p oldReport newReport aggregatedRequests
    ∧ ∀ R d, updateResults p oldReport newReport aggregatedRequests = some (some R, d, none) →
        ∃ out, Object.index R "results" = Value.list out ∧
          ∀ e ∈ out, emptyResources e = false := by
  constructor
  · unfold updateResults
    rw [mergedTable_eq, mergedTable_eq, hashResults_withoutEmptyResources,
      entriesOf_withoutEmptyResources]
    cases hashResults oldReport (getDeletedResources p aggregatedRequests) with
    | none => rfl
    | some T =>
      simp only [updateResultsLoop_filter, set_withoutEmptyResources]
  · intro R d hrun
    obtain ⟨T, F, rs, _, _, _, hFi, _, hidx, _, _, _⟩ := updateResults_succeeds hrun
    refine ⟨F.map Prod.snd, hidx, fun e he => ?_⟩
    obtain ⟨k, hk⟩ := (tableInv_mem hFi e).1 he
    have hid := hFi.2 k e hk
    cases hemp : emptyResources e with
    | false => rfl
    | true =>
      rw [emptyResources_identityKey hemp] at hid
      exact Option.noConfusion hid

theorem updateResults_emptyResources_witness :
    updateResults samplePackage (withoutEmptyResources sampleOldEmpty)
        (withoutEmptyResources sampleNewEmpty) sampleRequests
      = updateResults samplePackage sampleOldEmpty sampleNewEmpty sampleRequests
    ∧ ∃ out, Object.index sampleMerged "results" = Value.list out ∧
        ∀ e ∈ out, emptyResources e = false :=
  ⟨(updateResults_emptyResources samplePackage sampleOldEmpty sampleNewEmpty
      sampleRequests).1,
   (updateResults_emptyResources samplePackage sampleOldEmpty sampleNewEmpty
      sampleRequests).2 sampleMerged true rfl⟩

/-! ## Tombstone-key parser -/

theorem splitChars_ne_nil (sep : Char) (l : List Char) : splitChars sep l ≠ [] := by
  cases l with
  | nil => simp [splitChars]
  | cons c cs =>
    simp only [splitChars]
    split
    · simp
    · split <;> simp

theorem splitChars_no_sep (sep : Char) (l : List Char) (h : sep ∉ l) :
    splitChars sep l = [l] := by
  induction l with
  | nil => rfl
  | cons c cs ih =>
    simp only [List.mem_cons, not_or] at h
    have hc : ¬ c = sep := fun hc => h.1 hc.symm
    simp [splitChars, hc, ih h.2]

theorem splitChars_append (sep : Char) (a b : List Char) (h : sep ∉ a) :
    splitChars sep (a ++ sep :: b) = a :: splitChars sep b := by
  induction a with
  | nil => simp [splitChars]
  | cons c cs ih =>
    simp only [List.mem_cons, not_or] at h
    have hc : ¬ c = sep := fun hc => h.1 hc.symm
    simp [splitChars, hc, ih h.2]

theorem stringsSplit_no_sep (sep : Char) (a : String) (h : sep ∉ a.data) :
    stringsSplit a sep = [a] := by
  simp [stringsSplit, splitChars_no_sep sep a.data h]

theorem stringsSplit_append (sep : Char) (a b : String) (h : sep ∉ a.data) :
    stringsSplit (a ++ String.singleton sep ++ b) sep = a :: stringsSplit b sep := by
  have hd : (a ++ String.singleton sep ++ b).data = a.data ++ sep :: b.data := by
    simp [String.data_append, String.singleton]
  simp [stringsSplit, hd, splitChars_append sep a.data b.data h]

/-- C13: with `P` the reserved prefix and `parts` the pieces of `key` between its "/":
`isDeletedPolicyKey` answers `(p, r, true)` when `parts = [P, p, r]`, `(p, "", true)`
when `parts = [P, p]`, and `("", "", false)` in every other case; so a key
`P/policy/rule` without further "/" gives `(policy, rule, true)` and a key `P/policy`
gives `(policy, "", true)`.  The function never panics. -/
theorem isDeletedPolicyKey_shapes (p : Package) (key : String) :
    (∀ policyName ruleName,
        stringsSplit key '/' = [p.deletedPolicyKey, policyName, ruleName] →
        isDeletedPolicyKey p key = some (policyName, ruleName, true))
    ∧ (∀ policyName, stringsSplit key '/' = [p.deletedPolicyKey, policyName] →
        isDeletedPolicyKey p key = some (policyName, "", true))
    ∧ ((∀ policyName ruleName,
          stringsSplit key '/' ≠ [p.deletedPolicyKey, policyName, ruleName]) →
        (∀ policyName, stringsSplit key '/' ≠ [p.deletedPolicyKey, policyName]) →
        isDeletedPolicyKey p key = some ("", "", false))
    ∧ (∀ policyName ruleName : String, '/' ∉ p.deletedPolicyKey.data →
        '/' ∉ policyName.data → '/' ∉ ruleName.data →
        key = p.deletedPolicyKey ++ "/" ++ policyName ++ "/" ++ ruleName →
        isDeletedPolicyKey p key = some (policyName, ruleName, true))
    ∧ (∀ policyName : String, '/' ∉ p.deletedPolicyKey.data → '/' ∉ policyName.data →
        key = p.deletedPolicyKey ++ "/" ++ policyName →
        isDeletedPolicyKey p key = some (policyName, "", true)) := by
  have h3 : ∀ policyName ruleName,
      stringsSplit key '/' = [p.deletedPolicyKey, policyName, ruleName] →
      isDeletedPolicyKey p key = some (policyName, ruleName, true) := by
    intro a b h
    simp [isDeletedPolicyKey, h]
  have h2 : ∀ policyName, stringsSplit key '/' = [p.deletedPolicyKey, policyName] →
      isDeletedPolicyKey p key = some (policyName, "", true) := by
    intro a h
    simp [isDeletedPolicyKey, h]
  refine ⟨h3, h2, ?_, ?_, ?_⟩
  · intro hn3 hn2
    unfold isDeletedPolicyKey
    simp only
    cases hs : stringsSplit key '/' with
    | nil =>
      exact absurd (by simpa [stringsSplit] using hs) (splitChars_ne_nil '/' key.data)
    | cons p0 rest =>
      simp only [List.get?_cons_zero, List.length_cons]
      by_cases hp : p0 = p.deletedPolicyKey
      · subst hp
        cases rest with
        | nil => simp
        | cons a rest1 =>
          cases rest1 with
          | nil => exact absurd hs (hn2 a)
          | cons b rest2 =>
            cases rest2 with
            | nil => exact absurd hs (hn3 a b)
            | cons c rest3 => simp
      · simp [hp]
  · intro a b hP ha hb hkey
    apply h3
    rw [hkey]
    have e1 : p.deletedPolicyKey ++ "/" ++ a ++ "/" ++ b
        = p.deletedPolicyKey ++ String.singleton '/' ++ (a ++ String.singleton '/' ++ b) := by
      simp [String.append_assoc, String.singleton]
      rfl
    rw [e1, stringsSplit_append '/' _ _ hP, stringsSplit_append '/' _ _ ha,
      stringsSplit_no_sep '/' _ hb]
  · intro a hP ha hkey
    apply h2
    rw [hkey]
    have e1 : p.deletedPolicyKey ++ "/" ++ a
        = p.deletedPolicyKey ++ String.singleton '/' ++ a := rfl
    rw [e1, stringsSplit_append '/' _ _ hP, stringsSplit_no_sep '/' _ ha]

theorem isDeletedPolicyKey_shapes_witness :
    isDeletedPolicyKey samplePackage "del/pol1/rule1" = some ("pol1", "rule1", true)
    ∧ isDeletedPolicyKey samplePackage "del/pol1" = some ("pol1", "", true)
    ∧ isDeletedPolicyKey samplePackage "other/pol1" = some ("", "", false) :=
  ⟨(isDeletedPolicyKey_shapes samplePackage "del/pol1/rule1").1 "pol1" "rule1" (by decide),
   (isDeletedPolicyKey_shapes samplePackage "del/pol1").2.1 "pol1" (by decide),
   (isDeletedPolicyKey_shapes samplePackage "other/pol1").2.2.1
     (fun _ _ h => absurd (congrArg List.length h)
       (show ¬ (stringsSplit "other/pol1" '/').length = 3 by decide))
     (fun _ h => absurd (congrArg List.head? h)
       (show ¬ (stringsSplit "other/pol1" '/').head? = some "del" by decide))⟩

/-! ## Marker derivation -/

theorem getDeletedResourcesLoop_eq (p : Package) (requests : List ChangeRequest) :
    ∀ resources : List deletedResource,
      getDeletedResourcesLoop p requests resources
        = resources ++ requests.filterMap
            (fun request => buildLabelForDeletedResource p request.labels request.annotations) := by
  induction requests with
  | nil => intro resources; simp [getDeletedResourcesLoop]
  | cons r rest ih =>
    intro resources
    have hstep : getDeletedResourcesLoop p (r :: rest) resources
        = getDeletedResourcesLoop p rest
            (match buildLabelForDeletedResource p r.labels r.annotations with
              | some dr => resources ++ [dr]
              | none => resources) := by
      simp [getDeletedResourcesLoop]
    rw [hstep, ih]
    cases hb : buildLabelForDeletedResource p r.labels r.annotations with
    | none => simp [List.filterMap_cons, hb]
    | some dr => simp [List.filterMap_cons, hb]

/-- C14: marker derivation.  `buildLabelForDeletedResource` returns a marker if and only
if both the resource-kind and the resource-name annotation are present; the marker then
holds these two annotation values and, as namespace, the value of the namespace label,
the empty string when that label is absent.  `getDeletedResources` returns, in fragment
order, exactly the markers of the fragments that have both annotations. -/
theorem getDeletedResources_markers (p : Package) :
    (∀ labels annotations : List (String × String),
        (∃ dr, buildLabelForDeletedResource p labels annotations = some dr) ↔
          ((∃ kind, lookupString? annotations p.deletedAnnotationResourceKind = some kind) ∧
            ∃ name, lookupString? annotations p.deletedAnnotationResourceName = some name))
    ∧ (∀ (labels annotations : List (String × String)) (kind name : String),
        lookupString? annotations p.deletedAnnotationResourceKind = some kind →
        lookupString? annotations p.deletedAnnotationResourceName = some name →
        buildLabelForDeletedResource p labels annotations
          = some { kind := kind, name := name
                   ns := (lookupString? labels p.resourceLabelNamespace).getD "" })
    ∧ (∀ requests : List ChangeRequest,
        getDeletedResources p (AggregatedRequests.cluster requests)
          = requests.filterMap (fun request =>
              buildLabelForDeletedResource p request.labels request.annotations))
    ∧ (∀ requests : List ChangeRequest,
        getDeletedResources p (AggregatedRequests.namespaced requests)
          = requests.filterMap (fun request =>
              buildLabelForDeletedResource p request.labels request.annotations))
    ∧ getDeletedResources p AggregatedRequests.other = [] := by
  have hbuild : ∀ (labels annotations : List (String × String)) (kind name : String),
      lookupString? annotations p.deletedAnnotationResourceKind = some kind →
      lookupString? annotations p.deletedAnnotationResourceName = some name →
      buildLabelForDeletedResource p labels annotations
        = some { kind := kind, name := name
                 ns := (lookupString? labels p.resourceLabelNamespace).getD "" } := by
    intro labels annotations kind name hk hn
    simp only [buildLabelForDeletedResource, lookupString, hk, hn, Option.isSome_some,
      Bool.and_self, Bool.not_true, Bool.false_eq_true, if_false]
    cases lookupString? labels p.resourceLabelNamespace <;> rfl
  refine ⟨?_, hbuild, ?_, ?_, rfl⟩
  · intro labels annotations
    constructor
    · rintro ⟨dr, hdr⟩
      cases hk : lookupString? annotations p.deletedAnnotationResourceKind with
      | none => simp [buildLabelForDeletedResource, hk] at hdr
      | some kind =>
        cases hn : lookupString? annotations p.deletedAnnotationResourceName with
        | none => simp [buildLabelForDeletedResource, hn] at hdr
        | some name => exact ⟨⟨kind, rfl⟩, ⟨name, rfl⟩⟩
    · rintro ⟨⟨kind, hk⟩, ⟨name, hn⟩⟩
      exact ⟨_, hbuild labels annotations kind name hk hn⟩
  · intro requests
    simp [getDeletedResources, getDeletedResourcesLoop_eq]
  · intro requests
    simp [getDeletedResources, getDeletedResourcesLoop_eq]

theorem getDeletedResources_markers_witness :
    buildLabelForDeletedResource samplePackage [("namespace", "x")]
        [("kind", "Pod"), ("name", "y")]
      = some { kind := "Pod", name := "y"
               ns := (lookupString? [("namespace", "x")]
                  samplePackage.resourceLabelNamespace).getD "" }
    ∧ buildLabelForDeletedResource samplePackage [] [("kind", "Namespace"), ("name", "n")]
      = some { kind := "Namespace", name := "n"
               ns := (lookupString? [] samplePackage.resourceLabelNamespace).getD "" } :=
  ⟨(getDeletedResources_markers samplePackage).2.1 [("namespace", "x")]
      [("kind", "Pod"), ("name", "y")] "Pod" "y" rfl rfl,
   (getDeletedResources_markers samplePackage).2.1 []
      [("kind", "Namespace"), ("name", "n")] "Namespace" "n" rfl rfl⟩

/-! ## Boundaries of the tombstone matcher -/

/-- C15: the marker `{kind "Namespace", name n}`, whatever its namespace, suppresses every
entry whose first resource has kind "Namespace" and name `n`, whatever the namespace
field of that resource; it suppresses no entry whose first resource's kind is not
"Namespace", because no marker suppresses an entry whose first resource's kind differs
from the marker's kind. -/
theorem generateHashKey_namespace_marker (n ns : String) (result resource : Object)
    (rest : List Value)
    (hres : Object.index result "resources" = Value.list (Value.map resource :: rest)) :
    (Object.index resource "kind" = Value.str "Namespace" →
        Object.index resource "name" = Value.str n →
        generateHashKey result { kind := "Namespace", ns := ns, name := n } = some ("", false))
    ∧ (Object.index resource "kind" ≠ Value.str "Namespace" →
        generateHashKey result { kind := "Namespace", ns := ns, name := n }
          = some (hashKeyOf result resource, true))
    ∧ (∀ m : deletedResource, Object.index resource "kind" ≠ Value.str m.kind →
        generateHashKey result m = some (hashKeyOf result resource, true)) := by
  have hgen : ∀ m : deletedResource, Object.index resource "kind" ≠ Value.str m.kind →
      generateHashKey result m = some (hashKeyOf result resource, true) := by
    intro m hk
    rw [generateHashKey_first result resource rest m hres]
    have : ¬ (Object.index resource "kind").eqString m.kind = true :=
      fun h => hk ((eqString_iff _ _).1 h)
    rw [if_neg (fun hc => this hc.2.1)]
  refine ⟨?_, ?_, hgen⟩
  · intro hk hn
    rw [generateHashKey_first result resource rest _ hres]
    have hz : ({ kind := "Namespace", ns := ns, name := n } : deletedResource)
        ≠ deletedResource.zero := by
      intro h
      have := congrArg deletedResource.kind h
      simp [deletedResource.zero] at this
    rw [if_pos ⟨hz, (eqString_iff _ _).2 hk, Or.inr ⟨rfl, (eqString_iff _ _).2 hn⟩⟩]
  · intro hk
    exact hgen _ hk

theorem generateHashKey_namespace_marker_witness :
    generateHashKey
        [("policy", Value.str "p"), ("rule", Value.str "r"),
         ("resources", Value.list
            [Value.map [("kind", Value.str "Namespace"), ("namespace", Value.str ""),
                        ("name", Value.str "teamA")]])]
        { kind := "Namespace", ns := "", name := "teamA" } = some ("", false)
    ∧ generateHashKey
        [("policy", Value.str "p"), ("rule", Value.str "r"),
         ("resources", Value.list
            [Value.map [("kind", Value.str "Pod"), ("namespace", Value.str "teamA"),
                        ("name", Value.str "y")]])]
        { kind := "Namespace", ns := "", name := "teamA" }
      = some (hashKeyOf
          [("policy", Value.str "p"), ("rule", Value.str "r"),
           ("resources", Value.list
              [Value.map [("kind", Value.str "Pod"), ("namespace", Value.str "teamA"),
                          ("name", Value.str "y")]])]
          [("kind", Value.str "Pod"), ("namespace", Value.str "teamA"),
           ("name", Value.str "y")], true) :=
  ⟨(generateHashKey_namespace_marker "teamA" ""
      [("policy", Value.str "p"), ("rule", Value.str "r"),
       ("resources", Value.list
          [Value.map [("kind", Value.str "Namespace"), ("namespace", Value.str ""),
                      ("name", Value.str "teamA")]])]
      [("kind", Value.str "Namespace"), ("namespace", Value.str ""),
       ("name", Value.str "teamA")] [] rfl).1 rfl rfl,
   (generateHashKey_namespace_marker "teamA" ""
      [("policy", Value.str "p"), ("rule", Value.str "r"),
       ("resources", Value.list
          [Value.map [("kind", Value.str "Pod"), ("namespace", Value.str "teamA"),
                      ("name", Value.str "y")]])]
      [("kind", Value.str "Pod"), ("namespace", Value.str "teamA"),
       ("name", Value.str "y")] [] rfl).2.1
      (fun h => absurd (Value.str.inj h) (by decide))⟩

/-- C16, the code at the failing input: on an entry without a `resources` field the type
assertion of `generateHashKey` panics, and so do `hashResults` on an old report and
`updateResults` on a new report that hold such an entry; an entry whose `resources`
field is an empty slice is skipped. -/
theorem generateHashKey_absent_resources_panics :
    generateHashKey sampleNoResources deletedResource.zero = none
    ∧ hashResults [("results", Value.list [Value.map sampleNoResources])] [] = none
    ∧ updateResults samplePackage []
        [("results", Value.list [Value.map sampleNoResources])] AggregatedRequests.other = none
    ∧ generateHashKey (sampleNoResources ++ [("resources", Value.list [])])
        deletedResource.zero = some ("", false) :=
  ⟨rfl, rfl, rfl, rfl⟩

/-! ## Seeding: which entries are filed -/

theorem seeds_iff (D : List deletedResource) (e : Value) (k : String) :
    seeds D e k = true ↔ identityKey e = some k ∧ survives D e := by
  constructor
  · intro hs
    refine ⟨seeds_identityKey hs, ?_⟩
    unfold seeds at hs
    split at hs
    · rw [List.any_eq_true] at hs
      obtain ⟨dr, hdr, hk⟩ := hs
      refine Or.inr ⟨dr, hdr, fun hsup => ?_⟩
      rw [hsup.2] at hk
      simp at hk
    · rename_i hD
      left
      cases D with
      | nil => rfl
      | cons a b => simp at hD
  · rintro ⟨hid, hsurv⟩
    unfold seeds
    rcases hsurv with hD | ⟨dr, hdr, hns⟩
    · subst hD
      simp [hid]
    · have hlen : D.length ≠ 0 := by
        intro h0
        rw [List.length_eq_zero] at h0
        subst h0
        simp at hdr
      rw [if_pos hlen, List.any_eq_true]
      refine ⟨dr, hdr, ?_⟩
      cases hk : keyUnder dr e with
      | none => exact absurd ⟨⟨k, hid⟩, hk⟩ hns
      | some k1 =>
        have := keyUnder_eq_identityKey hk
        rw [hid] at this
        simp [Option.some.inj this]

/-- What the seeded table binds under a key that some entry is seeded under. -/
theorem hashResults_isSome {oldReport : Object} {D : List deletedResource} {T : HashMap}
    (hT : hashResults oldReport D = some T) {e : Value} {k : String}
    (he : e ∈ entriesOf oldReport) (hs : seeds D e k = true) : (T.Get k).isSome = true := by
  obtain ⟨_, hget⟩ := hashResults_spec hT
  rw [hget k]
  cases hl : lastMatch (fun x => seeds D x k) (entriesOf oldReport) with
  | some x => rfl
  | none =>
    have := lastMatch_none.1 hl e he
    simp only at this
    rw [hs] at this
    exact Bool.noConfusion this

/-- C17: when `hashResults` returns, the keys of its table are the identity keys of the old
entries that have one and that survive the markers (no markers, or at least one marker
that does not suppress the entry); and under such a key the table holds the last such
entry in report order. -/
theorem hashResults_keys (oldReport : Object) (D : List deletedResource) (T : HashMap)
    (hT : hashResults oldReport D = some T) :
    (∀ k, (T.Get k).isSome = true ↔
        ∃ e ∈ entriesOf oldReport, identityKey e = some k ∧
          (D = [] ∨ ∃ dr ∈ D, ¬ suppressedBy dr e))
    ∧ (∀ k e, T.Get k = some e ↔
        ∃ pre post, entriesOf oldReport = pre ++ e :: post ∧
          (identityKey e = some k ∧ (D = [] ∨ ∃ dr ∈ D, ¬ suppressedBy dr e)) ∧
          ∀ x ∈ post, ¬ (identityKey x = some k ∧ (D = [] ∨ ∃ dr ∈ D, ¬ suppressedBy dr x))) := by
  obtain ⟨_, hget⟩ := hashResults_spec hT
  have hsurv : ∀ x k, (seeds D x k = true ↔
      identityKey x = some k ∧ (D = [] ∨ ∃ dr ∈ D, ¬ suppressedBy dr x)) :=
    fun x k => seeds_iff D x k
  constructor
  · intro k
    constructor
    · intro hsome
      rw [hget k] at hsome
      cases hl : lastMatch (fun x => seeds D x k) (entriesOf oldReport) with
      | none => simp [hl] at hsome
      | some e =>
        obtain ⟨he, hs⟩ := lastMatch_mem hl
        exact ⟨e, he, (hsurv e k).1 hs⟩
    · rintro ⟨e, he, hs⟩
      exact hashResults_isSome hT he ((hsurv e k).2 hs)
  · intro k e
    rw [hget k, lastMatch_some]
    constructor
    · rintro ⟨pre, post, hsplit, hs, hpost⟩
      refine ⟨pre, post, hsplit, (hsurv e k).1 hs, fun x hx hc => ?_⟩
      have := hpost x hx
      rw [(hsurv x k).2 hc] at this
      exact Bool.noConfusion this
    · rintro ⟨pre, post, hsplit, hs, hpost⟩
      refine ⟨pre, post, hsplit, (hsurv e k).2 hs, fun x hx => ?_⟩
      cases hsx : seeds D x k with
      | false => rfl
      | true => exact absurd ((hsurv x k).1 hsx) (hpost x hx)

theorem hashResults_keys_witness :
    (∀ k, (sampleSeed.Get k).isSome = true ↔
        ∃ e ∈ entriesOf sampleOld, identityKey e = some k ∧
          (getDeletedResources samplePackage sampleRequests = [] ∨
            ∃ dr ∈ getDeletedResources samplePackage sampleRequests, ¬ suppressedBy dr e))
    ∧ (∀ k e, sampleSeed.Get k = some e ↔
        ∃ pre post, entriesOf sampleOld = pre ++ e :: post ∧
          (identityKey e = some k ∧
            (getDeletedResources samplePackage sampleRequests = [] ∨
              ∃ dr ∈ getDeletedResources samplePackage sampleRequests,
                ¬ suppressedBy dr e)) ∧
          ∀ x ∈ post, ¬ (identityKey x = some k ∧
            (getDeletedResources samplePackage sampleRequests = [] ∨
              ∃ dr ∈ getDeletedResources samplePackage sampleRequests,
                ¬ suppressedBy dr x))) :=
  hashResults_keys sampleOld (getDeletedResources samplePackage sampleRequests) sampleSeed
    sample_seed

/-! ## Frame -/

theorem hashResults_congr {oldReport oldReport1 : Object}
    (h : Object.get? oldReport1 "results" = Object.get? oldReport "results")
    (D : List deletedResource) : hashResults oldReport1 D = hashResults oldReport D := by
  simp only [hashResults, h]

/-- C18: frame.  The report returned by a successful `updateResults` agrees with the new
report passed in on every top-level field other than `results` and `summary`, and an
old report with the same `results` field gives the same outcome. -/
theorem updateResults_frame (p : Package) (oldReport newReport : Object)
    (aggregatedRequests : AggregatedRequests) (R : Object) (d : Bool)
    (hrun : updateResults p oldReport newReport aggregatedRequests = some (some R, d, none)) :
    (∀ k, k ≠ "results" → k ≠ "summary" → Object.get? R k = Object.get? newReport k)
    ∧ (∀ oldReport1 : Object,
        Object.get? oldReport1 "results" = Object.get? oldReport "results" →
        updateResults p oldReport1 newReport aggregatedRequests = some (some R, d, none)) := by
  constructor
  · intro k h1 h2
    obtain ⟨_, _, _, _, _, _, _, _, _, _, _, hR⟩ := updateResults_succeeds hrun
    rw [hR, get?_set, get?_set, if_neg (Ne.symm h2), if_neg (Ne.symm h1)]
  · intro oldReport1 hsame
    rw [← hrun]
    unfold updateResults mergedTable
    rw [hashResults_congr hsame]

theorem updateResults_frame_witness :
    (∀ k, k ≠ "results" → k ≠ "summary" →
        Object.get? sampleMerged k = Object.get? sampleNew k)
    ∧ (∀ oldReport1 : Object,
        Object.get? oldReport1 "results" = Object.get? sampleOld "results" →
        updateResults samplePackage oldReport1 sampleNew sampleRequests
          = some (some sampleMerged, true, none)) :=
  updateResults_frame samplePackage sampleOld sampleNew sampleRequests sampleMerged true
    sample_run

/-! ## Identity keys are not injective -/

/-- C19: the entries with policy "a-b", rule "c" and with policy "a", rule "b-c", for the
same first resource, differ in policy and rule and get the same key from
`generateHashKey`; `updateResults` given both as new entries returns only the second one
and the flag `true`. -/
theorem identityKey_not_injective :
    Object.index [("policy", Value.str "a-b"), ("rule", Value.str "c")] "policy"
        ≠ Object.index [("policy", Value.str "a"), ("rule", Value.str "b-c")] "policy"
    ∧ identityKey (sampleEntry "a-b" "c" "Pod" "x" "y" "pass") = some "a-b-c-Pod-x-y"
    ∧ identityKey (sampleEntry "a" "b-c" "Pod" "x" "y" "fail") = some "a-b-c-Pod-x-y"
    ∧ (∃ m1 m2, sampleEntry "a-b" "c" "Pod" "x" "y" "pass" = Value.map m1 ∧
        sampleEntry "a" "b-c" "Pod" "x" "y" "fail" = Value.map m2 ∧
        generateHashKey m1 deletedResource.zero = generateHashKey m2 deletedResource.zero ∧
        generateHashKey m1 deletedResource.zero = some ("a-b-c-Pod-x-y", true))
    ∧ updateResults samplePackage []
        [("results", Value.list [sampleEntry "a-b" "c" "Pod" "x" "y" "pass",
            sampleEntry "a" "b-c" "Pod" "x" "y" "fail"])]
        AggregatedRequests.other
      = some (some
          [("results", Value.list [sampleEntry "a" "b-c" "Pod" "x" "y" "fail"]),
           ("summary", Value.map [("pass", Value.int 0), ("fail", Value.int 1),
              ("warn", Value.int 0), ("error", Value.int 0), ("skip", Value.int 0)])],
          true, none) :=
  ⟨fun h => absurd (Value.str.inj h) (by decide), rfl, rfl, ⟨_, _, rfl, rfl, rfl, rfl⟩, rfl⟩

/-! ## Absent namespace field -/

/-- C20: for a marker `m` whose kind is not "Namespace" (whatever its namespace, the empty
string of a fragment without namespace label in particular), an entry whose first
resource carries no `namespace` field is not suppressed, also when that resource has the
kind and the name of `m`: the absent field is the nil interface, which is not equal to
a string.  Such an entry of the old report is filed by `hashResults` under the single
marker `m`; and a fragment without namespace label gives a marker with the empty
namespace. -/
theorem generateHashKey_absent_namespace (m : deletedResource) (result resource : Object)
    (rest : List Value)
    (hres : Object.index result "resources" = Value.list (Value.map resource :: rest))
    (hkind : m.kind ≠ "Namespace")
    (habs : Object.get? resource "namespace" = none) :
    generateHashKey result m = some (hashKeyOf result resource, true)
    ∧ Object.index resource "namespace" ≠ Value.str m.ns
    ∧ (∀ (oldReport : Object) (T : HashMap), Value.map result ∈ entriesOf oldReport →
        hashResults oldReport [m] = some T →
        (T.Get (hashKeyOf result resource)).isSome = true)
    ∧ (∀ (p : Package) (labels annotations : List (String × String)) (dr : deletedResource),
        lookupString? labels p.resourceLabelNamespace = none →
        buildLabelForDeletedResource p labels annotations = some dr → dr.ns = "") := by
  have hnil : Object.index resource "namespace" = Value.null := by
    simp [Object.index, habs]
  have hgen : generateHashKey result m = some (hashKeyOf result resource, true) := by
    rw [generateHashKey_first result resource rest m hres]
    have hns : ¬ (Object.index resource "namespace").eqString m.ns = true := by
      rw [hnil]
      simp [Value.eqString]
    rw [if_neg]
    rintro ⟨_, _, ⟨_, h2⟩ | ⟨h3, _⟩⟩
    · exact hns h2
    · exact hkind h3
  refine ⟨hgen, ?_, ?_, ?_⟩
  · rw [hnil]
    intro h
    exact Value.noConfusion h
  · intro oldReport T hmem hT
    have hs : seeds [m] (Value.map result) (hashKeyOf result resource) = true := by
      simp [seeds, keyUnder, hgen]
    exact hashResults_isSome hT hmem hs
  · intro p labels annotations dr hlabel hbuild
    unfold buildLabelForDeletedResource at hbuild
    simp only at hbuild
    split at hbuild
    · exact Option.noConfusion hbuild
    · rw [← Option.some.inj hbuild]
      simp [lookupString, hlabel]

theorem generateHashKey_absent_namespace_witness :
    generateHashKey
        [("policy", Value.str "p"), ("rule", Value.str "r"), ("result", Value.str "pass"),
         ("resources", Value.list
            [Value.map [("kind", Value.str "Node"), ("name", Value.str "n1")]])]
        { kind := "Node", ns := "", name := "n1" }
      = some ("p-r-Node-%!s(<nil>)-n1", true) :=
  (generateHashKey_absent_namespace { kind := "Node", ns := "", name := "n1" }
    [("policy", Value.str "p"), ("rule", Value.str "r"), ("result", Value.str "pass"),
     ("resources", Value.list
        [Value.map [("kind", Value.str "Node"), ("name", Value.str "n1")]])]
    [("kind", Value.str "Node"), ("name", Value.str "n1")] [] rfl (by decide) rfl).1

end policyreport
